import Mathlib

/-!
Verification of the faccina data/query layer (`src/server/src/db.rs`).

Strings are embedded as `List Char` (Rust `char`-level view; all inputs of
interest are ASCII, where Rust's byte indices coincide with char indices).
Each definition is a shallow embedding of the correspondingly named Rust
item; a few external collaborators (`utils::trim_whitespace`, `slugify`,
`tag_alias`, the `sha2`/`rand` crates) are not part of the repository and
are modelled from the specification, as marked in their doc comments.
-/

namespace Faccina

/-- Rust `str::split(sep)` at the char level: splits at every occurrence of
`sep`, keeping empty segments (so `"".split(c)` yields one empty segment). -/
def splitCh (sep : Char) : List Char → List (List Char)
  | [] => [[]]
  | c :: cs =>
    match splitCh sep cs with
    | [] => [[]]
    | h :: t => if c = sep then [] :: h :: t else (c :: h) :: t

/-- Rust `Vec::<String>::join(sep)` for a one-char separator. -/
def joinCh (sep : Char) : List (List Char) → List Char
  | [] => []
  | [p] => p
  | p :: ps => p ++ sep :: joinCh sep ps

/-- Index of the last character satisfying `p` (Rust `Iterator::rposition`). -/
def rpos (p : Char → Bool) (l : List Char) : Option Nat :=
  match (l.reverse).findIdx? p with
  | some k => some (l.length - 1 - k)
  | none => none

/-- Rust `str::trim_end_matches('$')`: drop every trailing `'$'`. -/
def trimEndDollar (t : List Char) : List Char :=
  (t.reverse.dropWhile (fun c => c = '$')).reverse

/-- One token of `parse_query`'s first pass: `s.ends_with('$')` strips the
trailing dollars (exact match), otherwise `:*` is appended (prefix match). -/
def tokDollar (t : List Char) : List Char :=
  if t.getLast? = some '$' then trimEndDollar t else t ++ [':', '*']

/-- One token of `parse_query`'s first pass: a leading `-` becomes `!`
(Rust `s.replacen('-', "!", 1)` guarded by `s.starts_with('-')`). -/
def tokNeg (t : List Char) : List Char :=
  match t with
  | '-' :: rest => '!' :: rest
  | _ => t

/-- First pass of `parse_query` (db.rs lines 393-412): replace `&` by a
space, split on spaces, keep the part after the last `:` of each token,
apply the `$`/`:*` and `-`/`!` rewrites, and join the tokens with `&`. -/
def parseQueryTokens (q : List Char) : List Char :=
  joinCh '&'
    (((splitCh ' ' (q.map (fun c => if c = '&' then ' ' else c))).map
      (fun s => tokNeg (tokDollar ((splitCh ':' s).getLastD [])))))

/-- Grouping of the first `|`-segment (db.rs lines 423-435): insert `(`
after the last `&`/`|`, or prepend it when there is none. -/
def groupFirst (s : List Char) : List Char :=
  match rpos (fun c => c = '&' || c = '|') s with
  | some p => s.insertIdx (p + 1) '('
  | none => '(' :: s

/-- Grouping of the last `|`-segment (db.rs lines 436-445): insert `)`
before the first `&`/`|`, or append it when there is none. -/
def groupLast (s : List Char) : List Char :=
  match s.findIdx? (fun c => c = '&' || c = '|') with
  | some p => s.insertIdx p ')'
  | none => s ++ [')']

/-- Grouping of a middle `|`-segment (db.rs lines 446-463): insert `)`
before the first `&`/`|` if any, then `(` after the last `&` if any. -/
def groupMid (s : List Char) : List Char :=
  let s1 :=
    match s.findIdx? (fun c => c = '&' || c = '|') with
    | some p => s.insertIdx p ')'
    | none => s
  match rpos (fun c => c = '&') s1 with
  | some p => s1.insertIdx (p + 1) '('
  | none => s1

/-- Rust `iter().enumerate().map(f)`: map with the element's index. -/
def mapWithIdx (f : Nat → α → β) : Nat → List α → List β
  | _, [] => []
  | i, a :: as => f i a :: mapWithIdx f (i + 1) as

/-- The grouping pass of `parse_query`, applied only when there is more
than one `|`-segment. -/
def groupSegs (segs : List (List Char)) : List (List Char) :=
  mapWithIdx
    (fun i s =>
      if i = 0 then groupFirst s
      else if i = segs.length - 1 then groupLast s
      else groupMid s)
    0 segs

/-- Final pass of `parse_query` (db.rs lines 468-483): every segment but
the last gets the `$`/`:*` rewrite again, then the segments are rejoined
with `|`. -/
def finalizeSegs (segs : List (List Char)) : List Char :=
  joinCh '|'
    (mapWithIdx
      (fun i s =>
        if i < segs.length - 1 then
          (if s.getLast? = some '$' then trimEndDollar s else s ++ [':', '*'])
        else s)
      0 segs)

/-- `parse_query` (db.rs lines 388-486): compiles the cleaned free-text
part of a search into a PostgreSQL `tsquery` ranking expression. -/
def parse_query (q : List Char) : List Char :=
  if q = [] then []
  else
    let segs := splitCh '|' (parseQueryTokens q)
    finalizeSegs (if segs.length > 1 then groupSegs segs else segs)

/-! ### PostgreSQL `tsquery` expressions

The ranking expression produced by `parse_query` is consumed by
`to_tsquery`, whose boolean grammar gives `!` the highest precedence,
then `&`, then `|`, with parentheses for grouping.  We embed that
grammar so claims about the *meaning* of the produced expression can be
stated.  Atoms are the maximal runs of non-operator characters (a
lexeme together with its `:*` prefix-match marker). -/

inductive TsExpr where
  | atom : List Char → TsExpr
  | nt : TsExpr → TsExpr
  | an : TsExpr → TsExpr → TsExpr
  | orr : TsExpr → TsExpr → TsExpr
deriving Repr, DecidableEq

/-- Truth value of a `tsquery` expression under an assignment of truth
values to its atoms. -/
def tsEval (σ : List Char → Bool) : TsExpr → Bool
  | .atom t => σ t
  | .nt e => !(tsEval σ e)
  | .an a b => tsEval σ a && tsEval σ b
  | .orr a b => tsEval σ a || tsEval σ b

/-- A character that terminates a `tsquery` atom. -/
def tsOpChar (c : Char) : Bool :=
  c = '&' || c = '|' || c = '(' || c = ')' || c = '!'

mutual

/-- Recursive-descent reading of a `tsquery` disjunction (`|` level). -/
def tsOr : Nat → List Char → Option (TsExpr × List Char)
  | 0, _ => none
  | fuel + 1, l =>
    match tsAnd fuel l with
    | none => none
    | some (e, r) => tsOrRest fuel e r

/-- Remaining `| …` branches of a disjunction. -/
def tsOrRest : Nat → TsExpr → List Char → Option (TsExpr × List Char)
  | 0, _, _ => none
  | fuel + 1, acc, l =>
    match l with
    | '|' :: rest =>
      match tsAnd fuel rest with
      | none => none
      | some (e, r) => tsOrRest fuel (.orr acc e) r
    | _ => some (acc, l)

/-- Recursive-descent reading of a `tsquery` conjunction (`&` level). -/
def tsAnd : Nat → List Char → Option (TsExpr × List Char)
  | 0, _ => none
  | fuel + 1, l =>
    match tsFactor fuel l with
    | none => none
    | some (e, r) => tsAndRest fuel e r

/-- Remaining `& …` branches of a conjunction. -/
def tsAndRest : Nat → TsExpr → List Char → Option (TsExpr × List Char)
  | 0, _, _ => none
  | fuel + 1, acc, l =>
    match l with
    | '&' :: rest =>
      match tsFactor fuel rest with
      | none => none
      | some (e, r) => tsAndRest fuel (.an acc e) r
    | _ => some (acc, l)

/-- Recursive-descent reading of a `tsquery` factor: negation,
parenthesized sub-expression, or atom. -/
def tsFactor : Nat → List Char → Option (TsExpr × List Char)
  | 0, _ => none
  | fuel + 1, l =>
    match l with
    | '!' :: rest =>
      match tsFactor fuel rest with
      | none => none
      | some (e, r) => some (.nt e, r)
    | '(' :: rest =>
      match tsOr fuel rest with
      | none => none
      | some (e, r) =>
        match r with
        | ')' :: r2 => some (e, r2)
        | _ => none
    | _ =>
      let tok := l.takeWhile (fun c => !tsOpChar c)
      if tok = [] then none
      else some (.atom tok, l.dropWhile (fun c => !tsOpChar c))

end

/-- Read a whole string as a `tsquery` expression. -/
def tsRead (l : List Char) : Option TsExpr :=
  match tsOr (2 * l.length + 4) l with
  | some (e, []) => some e
  | _ => none

/-- Atom assignment used to separate the two candidate readings of the
compiled form of `a&b|c&d`: the atoms of the first conjunct are true, the
others false. -/
def sigC2 (t : List Char) : Bool :=
  t = "a:*".data || t = "b:*".data

/-! ### The facet-filter regex (`add_tag_matches` / `clean_value`)

Both functions run
`(?i)-?(artist|circle|…|pages):(".*?"|'.*?'|[^\s]+)` over their input
with `captures_iter`.  We embed the matcher for this one pattern: at
each start position an optional `-`, then one of the facet names
(case-insensitively; no name is a prefix of another, so alternation
order is immaterial), a `:`, and a value that is double-quoted (lazy),
single-quoted (lazy), or a maximal nonempty run of non-whitespace.
Failed positions advance by one character; matches are non-overlapping
(`captures_iter` semantics of the `regex` crate). -/

def facetNames : List (List Char) :=
  ["artist".data, "circle".data, "magazine".data, "event".data, "publisher".data,
   "parody".data, "tag".data, "male".data, "female".data, "misc".data, "other".data,
   "title".data, "pages".data]

/-- Case-insensitive removal of the pattern `p` from the front of `l`. -/
def stripPrefixCI : List Char → List Char → Option (List Char)
  | [], l => some l
  | _, [] => none
  | p :: ps, c :: cs => if p.toLower = c.toLower then stripPrefixCI ps cs else none

/-- Try every facet name in turn at the front of `l`. -/
def tryFacets : List (List Char) → List Char → Option (List Char × List Char)
  | [], _ => none
  | f :: fs, l =>
    match stripPrefixCI f l with
    | some rest => some (f, rest)
    | none => tryFacets fs l

/-- Scan for the closing quote `q`; `.` in the regex does not match a
newline, so a newline before the close makes the quoted alternative
fail. Returns (content, rest-after-close). -/
def scanQuote (q : Char) : List Char → Option (List Char × List Char)
  | [] => none
  | c :: cs =>
    if c = q then some ([], cs)
    else if c = '\n' then none
    else
      match scanQuote q cs with
      | some (v, rest) => some (c :: v, rest)
      | none => none

/-- The `[^\s]+` alternative: a maximal nonempty run of non-whitespace. -/
def nonWsValue (l : List Char) : Option (List Char × List Char) :=
  let v := l.takeWhile (fun c => !c.isWhitespace)
  if v = [] then none else some (v, l.dropWhile (fun c => !c.isWhitespace))

/-- The value group `(".*?"|'.*?'|[^\s]+)`; a quoted capture keeps its
quotes (they are stripped later by `trim_matches`). -/
def filterValue (l : List Char) : Option (List Char × List Char) :=
  match l with
  | '"' :: cs =>
    (match scanQuote '"' cs with
     | some (v, rest) => some ('"' :: (v ++ ['"']), rest)
     | none => nonWsValue l)
  | '\'' :: cs =>
    (match scanQuote '\'' cs with
     | some (v, rest) => some ('\'' :: (v ++ ['\'']), rest)
     | none => nonWsValue l)
  | _ => nonWsValue l

/-- One capture of the facet-filter regex: the whole matched slice
(capture 0), the negation flag, the facet (capture 1, lowercased) and
the raw value (capture 2). -/
structure FacetCapture where
  full : List Char
  negated : Bool
  facet : List Char
  rawValue : List Char
deriving Repr, DecidableEq

/-- Try to match the facet-filter regex at the start of `l`. -/
def matchFilterAt (l : List Char) : Option (FacetCapture × List Char) :=
  let (neg, l1) := match l with
    | '-' :: t => (true, t)
    | _ => (false, l)
  match tryFacets facetNames l1 with
  | none => none
  | some (f, l2) =>
    match l2 with
    | ':' :: l3 =>
      (match filterValue l3 with
       | none => none
       | some (v, rest) =>
         some ({ full := l.take (l.length - rest.length), negated := neg,
                 facet := f, rawValue := v }, rest))
    | _ => none

/-- `captures_iter`: all non-overlapping matches, scanning left to
right; a position with no match advances by one character. -/
def findFilters : Nat → List Char → List FacetCapture
  | 0, _ => []
  | _, [] => []
  | fuel + 1, c :: t =>
    match matchFilterAt (c :: t) with
    | some (cap, rest) => cap :: findFilters fuel rest
    | none => findFilters fuel t

/-- All captures of the facet-filter regex in `l`. -/
def filterCaptures (l : List Char) : List FacetCapture :=
  findFilters (l.length + 1) l

/-- Rust `str::trim_matches(ch)`: drop every leading and trailing `ch`. -/
def trimMatches (ch : Char) (l : List Char) : List Char :=
  ((l.dropWhile (fun c => c = ch)).reverse.dropWhile (fun c => c = ch)).reverse

/-- Value post-processing in `add_tag_matches` (db.rs lines 540-547):
strip double then single quotes, `*` → `%`, remove parentheses. -/
def processedValue (raw : List Char) : List Char :=
  ((trimMatches '\'' (trimMatches '"' raw)).map
      (fun c => if c = '*' then '%' else c)).filter
    (fun c => !(c = '(' || c = ')'))

/-- One emitted facet predicate: negation flag, facet name, and the
value split into OR-groups of AND-groups (db.rs lines 549-587). -/
structure FacetPredicate where
  negated : Bool
  facet : List Char
  groups : List (List (List Char))
deriving Repr, DecidableEq

/-- The predicate list compiled from a search string: one predicate per
regex capture (`add_tag_matches`, db.rs lines 488-590). -/
def predicatesOf (l : List Char) : List FacetPredicate :=
  (filterCaptures l).map (fun cap =>
    let v := processedValue cap.rawValue
    { negated := cap.negated, facet := cap.facet,
      groups := (splitCh '|' v).map (splitCh '&') })

/-! ### Search-input sanitization (`search`, db.rs lines 644-667) -/

/-- Whitespace-or-not splitter used by the `trim_whitespace` model:
maximal nonempty runs of characters on which `sep` is false. -/
def runsAux (sep : Char → Bool) : List Char → List Char → List (List Char)
  | [], acc => if acc = [] then [] else [acc.reverse]
  | c :: cs, acc =>
    if sep c then
      (if acc = [] then runsAux sep cs [] else acc.reverse :: runsAux sep cs [])
    else runsAux sep cs (c :: acc)

/-- Maximal nonempty runs of non-`sep` characters. -/
def runsOf (sep : Char → Bool) (l : List Char) : List (List Char) :=
  runsAux sep l []

/-- Modelled from the spec: `utils::trim_whitespace` is not part of the
repository sources; the spec says "collapse whitespace runs to one
space", so we split on whitespace and rejoin the nonempty words with
single spaces (which also trims the ends). -/
def trim_whitespace (l : List Char) : List Char :=
  joinCh ' ' (runsOf (fun c => c.isWhitespace) l)

/-- The literal strip set of `search` (db.rs line 644). -/
def stripSet : List Char := ['[', ']', '(', ')', '~', '&']

/-- First sanitization step of `search`: remove every stripped char. -/
def stripChars (l : List Char) : List Char :=
  l.filter (fun c => !stripSet.contains c)

/-- The sanitized string `value` of `search` (db.rs lines 645-651). -/
def sanitizeValue (l : List Char) : List Char :=
  trim_whitespace (stripChars l)

/-- Rust `str::trim`: drop leading and trailing whitespace. -/
def rustTrim (l : List Char) : List Char :=
  ((l.dropWhile (fun c => c.isWhitespace)).reverse.dropWhile
    (fun c => c.isWhitespace)).reverse

/-- Remove every (non-overlapping, left-to-right) occurrence of `pat`
(Rust `str::replace(pat, "")`), with fuel for termination. -/
def removeSub : Nat → List Char → List Char → List Char
  | 0, _, l => l
  | _, _, [] => []
  | fuel + 1, pat, c :: t =>
    if pat ≠ [] ∧ pat.isPrefixOf (c :: t) then
      removeSub fuel pat ((c :: t).drop pat.length)
    else c :: removeSub fuel pat t

/-- Remove every occurrence of `pat` from `l`. -/
def removeAllSub (pat l : List Char) : List Char :=
  removeSub (l.length + 1) pat l

/-- `clean_value` (db.rs lines 623-638): delete every regex capture from
the string, trim, and remove the remaining `:` characters. -/
def clean_value (q : List Char) : List Char :=
  let value := (filterCaptures q).foldl (fun acc cap => removeAllSub cap.full acc) q
  (rustTrim value).filter (fun c => !(c = ':'))

/-- The free-text ranking expression compiled by `search` (db.rs lines
644-653): `parse_query` applied to the sanitized, filter-free string. -/
def searchRanking (q : List Char) : List Char :=
  parse_query (trim_whitespace (clean_value (sanitizeValue q)))

/-- The facet predicate list compiled by `search`: `add_tag_matches` is
invoked on the raw `query.value` (db.rs line 667). -/
def searchPredicates (q : List Char) : List FacetPredicate :=
  predicatesOf q

/-! ### Seeded random ordering (`search`, db.rs lines 700-707)

The code hashes the caller's seed string (defaulting to `""`) with
SHA-256 (the `sha2` crate) and seeds `StdRng` with the 32-byte digest,
then shuffles the candidate ids (`SliceRandom::shuffle`, the classic
Fisher-Yates swap loop).  SHA-256 is implemented below from its public
specification (FIPS 180-4); `StdRng` is an external crate whose cipher
we do not reproduce — it is modelled from the spec ("seed a
deterministic pseudo-random generator") as a deterministic 64-bit
mixing generator initialized from the digest bytes. -/

/-- 32-bit right rotation. -/
def rotr32 (n x : Nat) : Nat :=
  ((x >>> n) ||| (x <<< (32 - n))) % 2 ^ 32

/-- One bisection step of the integer root search: try bit `i`. -/
def nthRootAux (k n : Nat) : Nat → Nat → Nat
  | 0, r => r
  | i + 1, r =>
    let c := r + 2 ^ i
    nthRootAux k n i (if c ^ k ≤ n then c else r)

/-- The largest `r ≤ 2 ^ 48` with `r ^ k ≤ n` (the integer `k`-th root
for the magnitudes used here). -/
def nthRoot (k n : Nat) : Nat :=
  nthRootAux k n 48 0

/-- The first 64 primes, whose roots define the SHA-256 constants. -/
def sha256Primes : List Nat :=
  [2, 3, 5, 7, 11, 13, 17, 19, 23, 29, 31, 37, 41, 43, 47, 53,
   59, 61, 67, 71, 73, 79, 83, 89, 97, 101, 103, 107, 109, 113, 127, 131,
   137, 139, 149, 151, 157, 163, 167, 173, 179, 181, 191, 193, 197, 199, 211, 223,
   227, 229, 233, 239, 241, 251, 257, 263, 269, 271, 277, 281, 283, 293, 307, 311]

/-- SHA-256 round constants: the first 32 bits of the fractional parts
of the cube roots of the first 64 primes (FIPS 180-4, section 4.2.2). -/
def sha256K : List Nat :=
  sha256Primes.map (fun p => nthRoot 3 (p * 2 ^ 96) % 2 ^ 32)

/-- Big-endian 4-byte grouping into 32-bit words. -/
def toWordsBE : List Nat → List Nat
  | b0 :: b1 :: b2 :: b3 :: rest =>
    (((b0 * 256 + b1) * 256 + b2) * 256 + b3) :: toWordsBE rest
  | _ => []

/-- A 32-bit word as 4 big-endian bytes. -/
def wordBytesBE (w : Nat) : List Nat :=
  [w / 2 ^ 24 % 256, w / 2 ^ 16 % 256, w / 2 ^ 8 % 256, w % 256]

/-- SHA-256 small sigma 0. -/
def ssig0 (x : Nat) : Nat := (rotr32 7 x) ^^^ (rotr32 18 x) ^^^ (x >>> 3)

/-- SHA-256 small sigma 1. -/
def ssig1 (x : Nat) : Nat := (rotr32 17 x) ^^^ (rotr32 19 x) ^^^ (x >>> 10)

/-- Extend the 16 message words by one scheduled word. -/
def schedStep (w : List Nat) : List Nat :=
  w ++ [(ssig1 (w.getD (w.length - 2) 0) + w.getD (w.length - 7) 0 +
         ssig0 (w.getD (w.length - 15) 0) + w.getD (w.length - 16) 0) % 2 ^ 32]

/-- Run `n` schedule-extension steps. -/
def schedule : Nat → List Nat → List Nat
  | 0, w => w
  | n + 1, w => schedule n (schedStep w)

/-- The eight 32-bit working variables of the SHA-256 compression. -/
structure Sha8 where
  a : Nat
  b : Nat
  c : Nat
  d : Nat
  e : Nat
  f : Nat
  g : Nat
  h : Nat
deriving Repr, DecidableEq

/-- The SHA-256 initial hash words: the first 32 bits of the fractional
parts of the square roots of the first 8 primes (FIPS 180-4, 5.3.3). -/
def sha256H0 : List Nat :=
  (sha256Primes.take 8).map (fun p => nthRoot 2 (p * 2 ^ 64) % 2 ^ 32)

/-- SHA-256 initial hash value. -/
def sha256Init : Sha8 :=
  ⟨sha256H0.getD 0 0, sha256H0.getD 1 0, sha256H0.getD 2 0, sha256H0.getD 3 0,
   sha256H0.getD 4 0, sha256H0.getD 5 0, sha256H0.getD 6 0, sha256H0.getD 7 0⟩

/-- One SHA-256 compression round. -/
def sha256Round (s : Sha8) (kw : Nat × Nat) : Sha8 :=
  let S1 := (rotr32 6 s.e) ^^^ (rotr32 11 s.e) ^^^ (rotr32 25 s.e)
  let ch := (s.e &&& s.f) ^^^ ((s.e ^^^ (2 ^ 32 - 1)) &&& s.g)
  let t1 := (s.h + S1 + ch + kw.1 + kw.2) % 2 ^ 32
  let S0 := (rotr32 2 s.a) ^^^ (rotr32 13 s.a) ^^^ (rotr32 22 s.a)
  let mj := (s.a &&& s.b) ^^^ (s.a &&& s.c) ^^^ (s.b &&& s.c)
  let t2 := (S0 + mj) % 2 ^ 32
  ⟨(t1 + t2) % 2 ^ 32, s.a, s.b, s.c, (s.d + t1) % 2 ^ 32, s.e, s.f, s.g⟩

/-- Compress one 64-byte block into the running hash. -/
def sha256Block (st : Sha8) (block : List Nat) : Sha8 :=
  let w := schedule 48 (toWordsBE block)
  let r := (sha256K.zip w).foldl sha256Round st
  ⟨(st.a + r.a) % 2 ^ 32, (st.b + r.b) % 2 ^ 32, (st.c + r.c) % 2 ^ 32,
   (st.d + r.d) % 2 ^ 32, (st.e + r.e) % 2 ^ 32, (st.f + r.f) % 2 ^ 32,
   (st.g + r.g) % 2 ^ 32, (st.h + r.h) % 2 ^ 32⟩

/-- Split a byte string into 64-byte blocks (fuel-driven so that the
kernel can evaluate it; the fuel is an upper bound on the block count). -/
def toBlocksAux : Nat → List Nat → List (List Nat)
  | 0, _ => []
  | _, [] => []
  | fuel + 1, b :: rest =>
    ((b :: rest).take 64) :: toBlocksAux fuel ((b :: rest).drop 64)

/-- The 64-byte blocks of a (padded) byte string. -/
def toBlocks (l : List Nat) : List (List Nat) :=
  toBlocksAux l.length l

/-- Process a padded message 64 bytes at a time. -/
def sha256Chunks (st : Sha8) (l : List Nat) : Sha8 :=
  (toBlocks l).foldl sha256Block st

/-- FIPS 180-4 message padding: `0x80`, zeros to 56 mod 64, and the
bit length as 8 big-endian bytes. -/
def sha256Pad (msg : List Nat) : List Nat :=
  let len := msg.length
  let z := (64 - (len + 9) % 64) % 64
  msg ++ 0x80 :: List.replicate z 0 ++
    [8 * len / 2 ^ 56 % 256, 8 * len / 2 ^ 48 % 256, 8 * len / 2 ^ 40 % 256,
     8 * len / 2 ^ 32 % 256, 8 * len / 2 ^ 24 % 256, 8 * len / 2 ^ 16 % 256,
     8 * len / 2 ^ 8 % 256, 8 * len % 256]

/-- SHA-256 of a byte string, as 32 bytes (FIPS 180-4; the behaviour of
the external `sha2` crate). -/
def sha256 (msg : List Nat) : List Nat :=
  let s := sha256Chunks sha256Init (sha256Pad msg)
  wordBytesBE s.a ++ wordBytesBE s.b ++ wordBytesBE s.c ++ wordBytesBE s.d ++
    wordBytesBE s.e ++ wordBytesBE s.f ++ wordBytesBE s.g ++ wordBytesBE s.h

/-- Bytes of a seed string (the seeds of interest are ASCII, where the
UTF-8 bytes are the code points). -/
def strBytes (s : List Char) : List Nat :=
  s.map (fun c => c.toNat)

/-- Modelled from the spec: `StdRng` (the `rand` crate) is outside the
repository; the spec only requires "a deterministic pseudo-random
generator" seeded from the digest. We fold the 32 digest bytes into a
64-bit state. -/
def rngInit (seedBytes : List Nat) : Nat :=
  seedBytes.foldl (fun acc b => (acc * 256 + b) % 2 ^ 64) 0

/-- Modelled from the spec: one deterministic 64-bit generator step. -/
def rngStep (s : Nat) : Nat :=
  (6364136223846793005 * s + 1442695040888963407) % 2 ^ 64

/-- Modelled from the spec: `gen_range(0..n)` for `n > 0`: advance the
state and reduce the high bits modulo `n`. -/
def genRange (s n : Nat) : Nat × Nat :=
  let s2 := rngStep s
  (if n = 0 then 0 else (s2 >>> 33) % n, s2)

/-- Swap the elements at positions `i` and `j` (Rust `slice::swap`). -/
def lswap (l : List Int) (i j : Nat) : List Int :=
  if h : i < l.length ∧ j < l.length then
    (l.set i (l.get ⟨j, h.2⟩)).set j (l.get ⟨i, h.1⟩)
  else l

/-- The Fisher-Yates swap loop of `SliceRandom::shuffle`: for `i` from
`len-1` down to `1`, swap position `i` with a generated `j ≤ i`. The
first argument is the current value of `i`. -/
def fyAux : Nat → Nat → List Int → List Int
  | 0, _, l => l
  | i + 1, rng, l =>
    fyAux i (genRange rng (i + 2)).2 (lswap l (i + 1) (genRange rng (i + 2)).1)

/-- The seeded shuffle of `search` for `Sorting::Random` (db.rs lines
700-707): SHA-256 the seed string (empty when absent), seed the
generator with the digest, Fisher-Yates-shuffle the id list. -/
def shuffleIds (seed : Option (List Char)) (ids : List Int) : List Int :=
  let digest := sha256 (strBytes (seed.getD []))
  fyAux (ids.length - 1) (rngInit digest) ids

/-! ### Pagination (`search`, db.rs lines 731-739, 818) -/

/-- The page slice of the ordered phase-1 id list: `skip((page-1)*24)`
then `take(24)` (db.rs lines 731-735). -/
def pageSlice (ids : List Int) (page : Nat) : List Int :=
  (ids.drop ((page - 1) * 24)).take 24

/-- The pair returned by `search` as far as ids are concerned: the page
slice and the total candidate count `all_ids.len()` (db.rs line 818). -/
def searchPage (ids : List Int) (page : Nat) : List Int × Nat :=
  (pageSlice ids page, ids.length)

/-- Concatenation of the slices of pages `1, …, m`. -/
def concatPages (ids : List Int) (m : Nat) : List Int :=
  ((List.range m).map (fun k => pageSlice ids (k + 1))).flatten

/-! ### The write-side store model

The rows and relation rows touched by `upsert_archive` and the
synchronizers, with the SQL statements of db.rs embedded as list
operations.  Ids are assigned from per-table counters (the serial
sequences).  `NOW()` is the state's `now` field. -/

/-- Modelled from the spec: the external `slug::slugify` — "lowercase,
transliterate, collapse non-alphanumerics to hyphens, trim"
(transliteration is the identity on the ASCII names used here). -/
def slugify (s : List Char) : List Char :=
  joinCh '-' (runsOf (fun c => !c.isAlphanum) (s.map Char.toLower))

/-- Modelled from the spec: the external `utils::tag_alias` lookup
`(name, slug) -> canonicalName`, with an empty alias table (it may only
rewrite the display form, never the slug). -/
def tag_alias (name _slug : List Char) : List Char :=
  name

/-- A taxonomy/tag registry row (`artists`, `circles`, …, `tags`). -/
structure TaxonomyRow where
  id : Int
  slug : List Char
  name : List Char
deriving Repr, DecidableEq

/-- Registry table plus its junction rows `(archive_id, taxonomy_id)`
for one facet, and the id sequence. -/
structure FacetState where
  rows : List TaxonomyRow
  nextId : Int
  rels : List (Int × Int)
deriving Repr, DecidableEq

/-- A tag junction row: `(archive_id, tag_id, namespace)`. -/
structure TagRel where
  archiveId : Int
  tagId : Int
  ns : List Char
deriving Repr, DecidableEq

/-- The `tags` table with its namespaced junction rows. -/
structure TagsState where
  rows : List TaxonomyRow
  nextId : Int
  rels : List TagRel
deriving Repr, DecidableEq

/-- An `archive_sources` row. -/
structure SourceRow where
  archiveId : Int
  name : List Char
  url : Option (List Char)
deriving Repr, DecidableEq

/-- An `archive_images` row. -/
structure ImageRow where
  archiveId : Int
  filename : List Char
  pageNumber : Int
  width : Option Int
  height : Option Int
deriving Repr, DecidableEq

/-- An `archives` row (the columns touched by the writer). -/
structure ArchiveRow where
  id : Int
  slug : List Char
  title : List Char
  description : Option (List Char)
  path : List Char
  hash : List Char
  pages : Int
  size : Int
  thumbnail : Int
  language : Option (List Char)
  released_at : Option Int
  has_metadata : Bool
  deleted_at : Option Int
  updated_at : Option Int
deriving Repr, DecidableEq

/-- The store state seen by the writer. -/
structure DbState where
  archives : List ArchiveRow
  nextArchiveId : Int
  artists : FacetState
  circles : FacetState
  magazines : FacetState
  events : FacetState
  publishers : FacetState
  parodies : FacetState
  tags : TagsState
  sources : List SourceRow
  images : List ImageRow
  now : Int
deriving Repr, DecidableEq

/-- `itertools::unique_by`: keep the first element for each key. -/
def dedupBy {β : Type} [DecidableEq β] (key : α → β) : List α → List α
  | [] => []
  | a :: as => a :: (dedupBy key as).filter (fun b => key b ≠ key a)

/-! `upsert_taxonomy` (db.rs lines 1094-1215), one definition per Rust
let-binding.  The SQL join and the `find(...).unwrap()` id resolution
are embedded with `find?`, exact under the unique-id invariant. -/

/-- `archive_tags`: the input names with their canonical slugs. -/
def taxInput (names : List (List Char)) : List (List Char × List Char) :=
  names.map (fun n => (slugify n, n))

/-- `SELECT id, slug FROM {table} WHERE slug = ANY($1)`. -/
def taxFound (st : FacetState) (names : List (List Char)) : List TaxonomyRow :=
  st.rows.filter (fun r => (taxInput names).any (fun t => t.1 = r.slug))

/-- `tags_to_insert`: input entries whose slug is not in the registry,
de-duplicated by slug (`unique_by`). -/
def taxToInsert (st : FacetState) (names : List (List Char)) :
    List (List Char × List Char) :=
  dedupBy (fun t => t.1)
    ((taxInput names).filter (fun t => (taxFound st names).all (fun r => r.slug ≠ t.1)))

/-- The rows returned by the batch `INSERT … RETURNING id, slug`, with
sequential fresh ids. -/
def taxNewRows (st : FacetState) (names : List (List Char)) : List TaxonomyRow :=
  mapWithIdx (fun k t => TaxonomyRow.mk (st.nextId + k) t.1 t.2) 0 (taxToInsert st names)

/-- `db_tags`: the found rows plus the newly inserted rows. -/
def taxDbTags (st : FacetState) (names : List (List Char)) : List TaxonomyRow :=
  taxFound st names ++ taxNewRows st names

/-- The registry table after the batch insert. -/
def taxRows2 (st : FacetState) (names : List (List Char)) : List TaxonomyRow :=
  st.rows ++ taxNewRows st names

/-- `archive_tags_relation`: the archive's junction rows joined with
the registry for their slugs. -/
def taxRelRows (st : FacetState) (names : List (List Char)) (a : Int) :
    List (Int × List Char) :=
  (st.rels.filter (fun p => p.1 = a)).filterMap
    (fun p => ((taxRows2 st names).find? (fun r => r.id = p.2)).map
      (fun r => (p.2, r.slug)))

/-- `relations_to_delete`: current junction rows whose slug is absent
from the input. -/
def taxDelete (st : FacetState) (names : List (List Char)) (a : Int) :
    List (Int × List Char) :=
  (taxRelRows st names a).filter
    (fun pr => ¬ (taxInput names).any (fun t => t.1 = pr.2))

/-- The junction table after the delete loop. -/
def taxKept (st : FacetState) (names : List (List Char)) (a : Int) :
    List (Int × Int) :=
  st.rels.filter (fun p =>
    ¬ (p.1 = a ∧ (taxDelete st names a).any (fun dd => dd.1 = p.2)))

/-- `relations_to_insert`: input entries whose slug is absent from the
current relations. -/
def taxInsertEntries (st : FacetState) (names : List (List Char)) (a : Int) :
    List (List Char × List Char) :=
  (taxInput names).filter
    (fun t => ¬ (taxRelRows st names a).any (fun pr => pr.2 = t.1))

/-- `tag_ids`: ids of the rows to relate, resolved from `db_tags`. -/
def taxTagIds (st : FacetState) (names : List (List Char)) (a : Int) : List Int :=
  (taxInsertEntries st names a).map
    (fun t => (((taxDbTags st names).find? (fun r => r.slug = t.1)).map
      (fun r => r.id)).getD 0)

/-- `upsert_taxonomy` (db.rs lines 1094-1215) for one facet table:
slugify the names, look up existing registry rows by slug, insert the
de-duplicated missing slugs with fresh ids, diff the archive's junction
rows by slug, delete the junction rows whose slug is absent from the
input, and insert junction rows for input slugs absent from the current
relations. -/
def upsert_taxonomy (names : List (List Char)) (archiveId : Int)
    (st : FacetState) : FacetState :=
  { rows := taxRows2 st names,
    nextId := st.nextId + (taxToInsert st names).length,
    rels := taxKept st names archiveId ++
      (taxTagIds st names archiveId).map (fun i => (archiveId, i)) }

/-! `upsert_tags` (db.rs lines 1217-1336): as `upsert_taxonomy` for the
`tags` table, but the junction rows carry a namespace, the diff matches
on the `(slug, namespace)` pair, and the display name passes through
the alias lookup. -/

/-- `archive_tags`: slug, aliased display name, namespace. -/
def tagInput (tags : List (List Char × List Char)) :
    List (List Char × List Char × List Char) :=
  tags.map (fun t =>
    let slug := slugify t.1
    (slug, tag_alias t.1 slug, t.2))

/-- `SELECT id, slug FROM tags WHERE slug = ANY($1)`. -/
def tagFound (st : TagsState) (tags : List (List Char × List Char)) :
    List TaxonomyRow :=
  st.rows.filter (fun r => (tagInput tags).any (fun t => t.1 = r.slug))

/-- Input entries whose slug is not in the registry, de-duplicated. -/
def tagToInsert (st : TagsState) (tags : List (List Char × List Char)) :
    List (List Char × List Char × List Char) :=
  dedupBy (fun t => t.1)
    ((tagInput tags).filter (fun t => (tagFound st tags).all (fun r => r.slug ≠ t.1)))

/-- The rows returned by the batch insert, with sequential fresh ids. -/
def tagNewRows (st : TagsState) (tags : List (List Char × List Char)) :
    List TaxonomyRow :=
  mapWithIdx (fun k t => TaxonomyRow.mk (st.nextId + k) t.1 t.2.1) 0 (tagToInsert st tags)

/-- `db_tags`: found plus newly inserted rows. -/
def tagDbTags (st : TagsState) (tags : List (List Char × List Char)) :
    List TaxonomyRow :=
  tagFound st tags ++ tagNewRows st tags

/-- The `tags` table after the batch insert. -/
def tagRows2 (st : TagsState) (tags : List (List Char × List Char)) :
    List TaxonomyRow :=
  st.rows ++ tagNewRows st tags

/-- The archive's namespaced junction rows joined for their slugs:
`(tag_id, slug, namespace)`. -/
def tagRelRows (st : TagsState) (tags : List (List Char × List Char)) (a : Int) :
    List (Int × List Char × List Char) :=
  (st.rels.filter (fun p => p.archiveId = a)).filterMap
    (fun p => ((tagRows2 st tags).find? (fun r => r.id = p.tagId)).map
      (fun r => (p.tagId, r.slug, p.ns)))

/-- Current junction rows whose `(slug, namespace)` is absent from the
input. -/
def tagDelete (st : TagsState) (tags : List (List Char × List Char)) (a : Int) :
    List (Int × List Char × List Char) :=
  (tagRelRows st tags a).filter
    (fun pr => ¬ (tagInput tags).any (fun t => t.1 = pr.2.1 ∧ t.2.2 = pr.2.2))

/-- The junction table after the delete loop (deletion matches on
`(archive_id, tag_id, namespace)`). -/
def tagKept (st : TagsState) (tags : List (List Char × List Char)) (a : Int) :
    List TagRel :=
  st.rels.filter (fun p =>
    ¬ (p.archiveId = a ∧
       (tagDelete st tags a).any (fun dd => dd.1 = p.tagId ∧ dd.2.2 = p.ns)))

/-- Input entries whose `(slug, namespace)` is absent from the current
relations. -/
def tagInsertEntries (st : TagsState) (tags : List (List Char × List Char)) (a : Int) :
    List (List Char × List Char × List Char) :=
  (tagInput tags).filter
    (fun t => ¬ (tagRelRows st tags a).any (fun pr => pr.2.1 = t.1 ∧ pr.2.2 = t.2.2))

/-- The junction rows inserted, ids resolved from `db_tags`. -/
def tagInserted (st : TagsState) (tags : List (List Char × List Char)) (a : Int) :
    List TagRel :=
  (tagInsertEntries st tags a).map (fun t =>
    TagRel.mk a
      ((((tagDbTags st tags).find? (fun r => r.slug = t.1)).map (fun r => r.id)).getD 0)
      t.2.2)

/-- `upsert_tags` (db.rs lines 1217-1336). -/
def upsert_tags (tags : List (List Char × List Char)) (archiveId : Int)
    (st : TagsState) : TagsState :=
  { rows := tagRows2 st tags,
    nextId := st.nextId + (tagToInsert st tags).length,
    rels := tagKept st tags archiveId ++ tagInserted st tags archiveId }

/-- SQL `=` on nullable values: a `NULL` operand never compares equal. -/
def sqlEqOpt {α : Type} [DecidableEq α] (a b : Option α) : Bool :=
  match a, b with
  | some x, some y => x = y
  | _, _ => false

/-- One `INSERT … ON CONFLICT (archive_id, name) DO UPDATE SET url`
into `archive_sources`. -/
def applySourceInsert (rows : List SourceRow) (archiveId : Int)
    (s : List Char × Option (List Char)) : List SourceRow :=
  if rows.any (fun r => r.archiveId = archiveId ∧ r.name = s.1) then
    rows.map (fun r =>
      if r.archiveId = archiveId ∧ r.name = s.1 then { r with url := s.2 } else r)
  else rows ++ [⟨archiveId, s.1, s.2⟩]

/-- `upsert_sources` (db.rs lines 1338-1396): when not merging, delete
the archive's rows whose `(name, url)` is absent from the input (the
SQL `url = $3` comparison never matches a `NULL` url); then insert
every input `(name, url)` absent from the existing rows, upserting the
url on an `(archive_id, name)` conflict. -/
def upsert_sources (sources : List (List Char × Option (List Char)))
    (archiveId : Int) (merge : Bool) (tbl : List SourceRow) : List SourceRow :=
  let existing := tbl.filter (fun r => r.archiveId = archiveId)
  let relations_to_delete :=
    existing.filter (fun e => ¬ sources.any (fun s => s.1 = e.name ∧ s.2 = e.url))
  let afterDelete :=
    if merge then tbl
    else
      tbl.filter (fun r =>
        ¬ relations_to_delete.any (fun d =>
            r.archiveId = archiveId ∧ r.name = d.name ∧ sqlEqOpt r.url d.url))
  let relations_to_insert :=
    sources.filter (fun s =>
      ¬ existing.any (fun r => r.name = s.1 ∧ r.url = s.2))
  relations_to_insert.foldl (fun acc s => applySourceInsert acc archiveId s) afterDelete

/-- Input shape of an `archive_images` row. -/
structure ArchiveImage where
  filename : List Char
  pageNumber : Int
  width : Option Int
  height : Option Int
deriving Repr, DecidableEq

/-- One `INSERT … ON CONFLICT (archive_id, page_number) DO UPDATE`
into `archive_images`. -/
def applyImageInsert (rows : List ImageRow) (archiveId : Int)
    (im : ArchiveImage) : List ImageRow :=
  if rows.any (fun r => r.archiveId = archiveId ∧ r.pageNumber = im.pageNumber) then
    rows.map (fun r =>
      if r.archiveId = archiveId ∧ r.pageNumber = im.pageNumber then
        { r with filename := im.filename, width := im.width, height := im.height }
      else r)
  else
    rows ++ [⟨archiveId, im.filename, im.pageNumber, im.width, im.height⟩]

/-- `upsert_images` (db.rs lines 1398-1446): delete the archive's image
rows whose page number is absent from the input, then upsert every
input row on `(archive_id, page_number)`. -/
def upsert_images (images : List ArchiveImage) (archiveId : Int)
    (tbl : List ImageRow) : List ImageRow :=
  let existing := tbl.filter (fun r => r.archiveId = archiveId)
  let relations_to_delete :=
    existing.filter (fun e => ¬ images.any (fun im => im.pageNumber = e.pageNumber))
  let afterDelete :=
    tbl.filter (fun r =>
      ¬ relations_to_delete.any (fun d =>
          r.archiveId = archiveId ∧ r.pageNumber = d.pageNumber))
  images.foldl (fun acc im => applyImageInsert acc archiveId im) afterDelete

/-- The `Relations` struct (db.rs lines 234-245). -/
structure Relations where
  artists : Option (List (List Char))
  circles : Option (List (List Char))
  magazines : Option (List (List Char))
  events : Option (List (List Char))
  publishers : Option (List (List Char))
  parodies : Option (List (List Char))
  tags : Option (List (List Char × List Char))
  sources : Option (List (List Char × Option (List Char)))
  images : Option (List ArchiveImage)
deriving Repr, DecidableEq

/-- Apply a synchronizer to a component when the input list is present. -/
def syncOpt {α β : Type} (input : Option α) (f : α → β → β) (cur : β) : β :=
  match input with
  | some xs => f xs cur
  | none => cur

/-- `upsert_relations` (db.rs lines 855-897): apply each synchronizer
for the relation lists that are present; sources are always merged
(`merge = true`, db.rs line 889).  The Rust code runs the synchronizers
sequentially on the transaction; as each one touches only its own
tables, the sequence equals this simultaneous component update. -/
def upsert_relations (data : Relations) (archiveId : Int) (st : DbState) : DbState :=
  { st with
    artists := syncOpt data.artists (fun xs => upsert_taxonomy xs archiveId) st.artists
    circles := syncOpt data.circles (fun xs => upsert_taxonomy xs archiveId) st.circles
    magazines := syncOpt data.magazines (fun xs => upsert_taxonomy xs archiveId) st.magazines
    events := syncOpt data.events (fun xs => upsert_taxonomy xs archiveId) st.events
    publishers := syncOpt data.publishers (fun xs => upsert_taxonomy xs archiveId) st.publishers
    parodies := syncOpt data.parodies (fun xs => upsert_taxonomy xs archiveId) st.parodies
    tags := syncOpt data.tags (fun xs => upsert_tags xs archiveId) st.tags
    sources := syncOpt data.sources (fun xs tbl => upsert_sources xs archiveId true tbl) st.sources
    images := syncOpt data.images (fun xs => upsert_images xs archiveId) st.images }

/-- `UpsertArchiveData` (db.rs lines 208-232): every field optional. -/
structure UpsertArchiveData where
  id : Option Int
  title : Option (List Char)
  slug : Option (List Char)
  description : Option (List Char)
  path : Option (List Char)
  hash : Option (List Char)
  pages : Option Int
  size : Option Int
  thumbnail : Option Int
  language : Option (List Char)
  released_at : Option Int
  deleted_at : Option Int
  has_metadata : Option Bool
  artists : Option (List (List Char))
  circles : Option (List (List Char))
  magazines : Option (List (List Char))
  events : Option (List (List Char))
  publishers : Option (List (List Char))
  parodies : Option (List (List Char))
  tags : Option (List (List Char × List Char))
  sources : Option (List (List Char × Option (List Char)))
  images : Option (List ArchiveImage)
deriving Repr, DecidableEq

/-- The all-absent upsert input (`UpsertArchiveData::default()`). -/
def emptyUpsertData : UpsertArchiveData :=
  ⟨none, none, none, none, none, none, none, none, none, none, none,
   none, none, none, none, none, none, none, none, none, none, none⟩

/-- The `Relations` slice of an upsert input (db.rs lines 933-944). -/
def relationsOf (d : UpsertArchiveData) : Relations :=
  ⟨d.artists, d.circles, d.magazines, d.events, d.publishers, d.parodies,
   d.tags, d.sources, d.images⟩

/-- Failures of the writer. `insufficientData` is the
`anyhow!("Insufficient archive data to insert")` error (db.rs line
1062); `rowNotFound` stands for a `fetch_one` with no row. -/
inductive DbErr where
  | insufficientData
  | rowNotFound
deriving Repr, DecidableEq

/-- The identity lookup of `upsert_archive` (db.rs lines 908-915):
`(id = $1 OR path = $2 OR hash = $3) AND deleted_at IS NULL`, where a
`NULL` parameter never compares equal. -/
def archiveMatch (d : UpsertArchiveData) (r : ArchiveRow) : Bool :=
  (sqlEqOpt d.id (some r.id) || sqlEqOpt d.path (some r.path) ||
   sqlEqOpt d.hash (some r.hash)) && r.deleted_at = none

/-- `copy_archive` (db.rs lines 821-853): re-read the row with the old
hash and insert a copy of its metadata under the new hash, returning
the fresh id. -/
def copy_archive (old_hash new_hash : List Char) (st : DbState) :
    Except DbErr (DbState × Int) :=
  match st.archives.find? (fun r => r.hash = old_hash) with
  | none => .error .rowNotFound
  | some rec =>
    let newId := st.nextArchiveId
    let row : ArchiveRow :=
      { id := newId, slug := rec.slug, title := rec.title,
        description := rec.description, path := rec.path, hash := new_hash,
        pages := rec.pages, size := rec.size, thumbnail := rec.thumbnail,
        language := rec.language, released_at := rec.released_at,
        has_metadata := rec.has_metadata, deleted_at := none, updated_at := none }
    .ok ({ st with archives := st.archives ++ [row], nextArchiveId := newId + 1 },
         newId)

/-- The `UPDATE archives SET …` of the update-in-place branch (db.rs
lines 968-1026) applied to the matched row: present optional fields
overwrite their column (`path` only when it differs from the matched
path), while `description`, `language` and `deleted_at` are written
unconditionally, and `updated_at = NOW()`.  The query builder pushes
each column assignment independently, so the statement equals this
simultaneous per-column update. -/
def applyArchiveUpdate (d : UpsertArchiveData) (recPath : List Char)
    (now : Int) (r : ArchiveRow) : ArchiveRow :=
  { r with
    title := match d.title with
      | some t => t
      | none => r.title
    slug := match d.slug with
      | some s => s
      | none => r.slug
    description := d.description
    path := match d.path with
      | some p => if p ≠ recPath then p else r.path
      | none => r.path
    pages := match d.pages with
      | some p => p
      | none => r.pages
    size := match d.size with
      | some s => s
      | none => r.size
    thumbnail := match d.thumbnail with
      | some t => t
      | none => r.thumbnail
    language := d.language
    released_at := match d.released_at with
      | some t => some t
      | none => r.released_at
    deleted_at := d.deleted_at
    has_metadata := match d.has_metadata with
      | some b => b
      | none => r.has_metadata
    updated_at := some now }

/-- `upsert_archive` (db.rs lines 899-1092) as a state transformer.
The matched-with-changed-hash branch versions the archive (db.rs lines
917-965); the matched branch updates in place and synchronizes the
relations on the matched id; the unmatched branch inserts when the six
required fields are present and fails with `insufficientData`
otherwise. The post-commit symlink refresh is outside the store and
not modelled. -/
def upsert_archive (d : UpsertArchiveData) (st : DbState) :
    Except DbErr (DbState × Int) :=
  match st.archives.find? (archiveMatch d) with
  | some rec =>
    if d.hash.isSome ∧ d.hash ≠ some rec.hash then
      match copy_archive rec.hash (d.hash.getD []) st with
      | .error e => .error e
      | .ok (st2, newId) =>
        let st3 := upsert_relations (relationsOf d) newId st2
        let st4 :=
          { st3 with
            archives := st3.archives.map (fun r =>
              if r.id = rec.id then { r with deleted_at := some st.now } else r) }
        .ok (st4, newId)
    else
      let st2 :=
        { st with
          archives := st.archives.map (fun r =>
            if r.id = rec.id then applyArchiveUpdate d rec.path st.now r else r) }
      let st3 := upsert_relations (relationsOf d) rec.id st2
      .ok (st3, rec.id)
  | none =>
    match d.title, d.path, d.hash, d.pages, d.size, d.thumbnail with
    | some title, some path, some hash, some pages, some size, some thumbnail =>
      let slug := d.slug.getD (slugify title)
      let newId := st.nextArchiveId
      let row : ArchiveRow :=
        { id := newId, slug := slug, title := title, description := d.description,
          path := path, hash := hash, pages := pages, size := size,
          thumbnail := thumbnail, language := d.language,
          released_at := d.released_at, has_metadata := d.has_metadata.getD false,
          deleted_at := none, updated_at := none }
      let st2 :=
        { st with archives := st.archives ++ [row], nextArchiveId := newId + 1 }
      let st3 := upsert_relations (relationsOf d) newId st2
      .ok (st3, newId)
    | _, _, _, _, _, _ => .error .insufficientData

/-- The transactional runner: a failing `upsert_archive` rolls the
transaction back, leaving the store unchanged. -/
def upsertArchiveRun (d : UpsertArchiveData) (st : DbState) :
    DbState × Except DbErr Int :=
  match upsert_archive d st with
  | .ok (st2, i) => (st2, .ok i)
  | .error e => (st, .error e)

instance {ε α : Type} [DecidableEq ε] [DecidableEq α] : DecidableEq (Except ε α)
  | .ok a, .ok b =>
    if h : a = b then .isTrue (by rw [h])
    else .isFalse (fun hh => by cases hh; exact h rfl)
  | .ok _, .error _ => .isFalse (fun hh => by cases hh)
  | .error _, .ok _ => .isFalse (fun hh => by cases hh)
  | .error a, .error b =>
    if h : a = b then .isTrue (by rw [h])
    else .isFalse (fun hh => by cases hh; exact h rfl)

/-- The successful result of a writer call, if any. -/
def okState (e : Except DbErr (DbState × Int)) : Option (DbState × Int) :=
  match e with
  | .ok p => some p
  | .error _ => none

/-! ### Observations and well-formedness for the synchronizer claims -/

/-- The slug of the registry row with id `tid`, if any. -/
def slugOfId (rows : List TaxonomyRow) (tid : Int) : Option (List Char) :=
  (rows.find? (fun r => r.id = tid)).map (fun r => r.slug)

/-- The junction rows of one archive. -/
def facetRelsOf (fs : FacetState) (a : Int) : List (Int × Int) :=
  fs.rels.filter (fun p => p.1 = a)

/-- The slugs currently related to archive `a`. -/
def currentSlugs (fs : FacetState) (a : Int) : List (List Char) :=
  (facetRelsOf fs a).filterMap (fun p => slugOfId fs.rows p.2)

/-- Database invariants of one facet component: unique registry ids and
slugs, referential integrity of the junction rows, and a fresh id
sequence. -/
def FacetWf (fs : FacetState) : Prop :=
  (fs.rows.map (fun r => r.id)).Nodup ∧
  (fs.rows.map (fun r => r.slug)).Nodup ∧
  (∀ p ∈ fs.rels, ∃ r ∈ fs.rows, r.id = p.2) ∧
  (∀ r ∈ fs.rows, r.id < fs.nextId)

/-- The namespaced tag junction rows of one archive. -/
def tagRelsOf (ts : TagsState) (a : Int) : List TagRel :=
  ts.rels.filter (fun p => p.archiveId = a)

/-- The `(slug, namespace)` pairs currently related to archive `a`. -/
def currentTagKeys (ts : TagsState) (a : Int) : List (List Char × List Char) :=
  (tagRelsOf ts a).filterMap
    (fun p => (slugOfId ts.rows p.tagId).map (fun s => (s, p.ns)))

/-- Database invariants of the tags component. -/
def TagsWf (ts : TagsState) : Prop :=
  (ts.rows.map (fun r => r.id)).Nodup ∧
  (ts.rows.map (fun r => r.slug)).Nodup ∧
  (∀ p ∈ ts.rels, ∃ r ∈ ts.rows, r.id = p.tagId) ∧
  (∀ r ∈ ts.rows, r.id < ts.nextId)

/-- The empty store. -/
def emptyDb : DbState :=
  { archives := [], nextArchiveId := 1,
    artists := ⟨[], 1, []⟩, circles := ⟨[], 1, []⟩, magazines := ⟨[], 1, []⟩,
    events := ⟨[], 1, []⟩, publishers := ⟨[], 1, []⟩, parodies := ⟨[], 1, []⟩,
    tags := ⟨[], 1, []⟩, sources := [], images := [], now := 0 }

/-- A one-archive store used in the concrete write-side scenarios:
archive 1 at path `/p` with hash `h1`, one artist relation to term 10
(`x`), and one source row. -/
def oneArchiveDb : DbState :=
  { archives := [{ id := 1, slug := "s".data, title := "T".data, description := none,
                   path := "/p".data, hash := "h1".data, pages := 10, size := 100,
                   thumbnail := 1, language := none, released_at := none,
                   has_metadata := true, deleted_at := none, updated_at := none }],
    nextArchiveId := 2,
    artists := { rows := [⟨10, "x".data, "X".data⟩], nextId := 11, rels := [(1, 10)] },
    circles := ⟨[], 1, []⟩, magazines := ⟨[], 1, []⟩, events := ⟨[], 1, []⟩,
    publishers := ⟨[], 1, []⟩, parodies := ⟨[], 1, []⟩,
    tags := ⟨[], 1, []⟩, sources := [⟨1, "web".data, some "u1".data⟩],
    images := [], now := 99 }

/-- A two-term facet registry with archive 1 related to `a` and `b`,
for the `{A,B} → {B,C}` scenario. -/
def facetAB : FacetState :=
  { rows := [⟨10, "a".data, "A".data⟩, ⟨11, "b".data, "B".data⟩], nextId := 12,
    rels := [(1, 10), (1, 11)] }

/-- A two-tag registry with archive 1 carrying `(a, female)` and
`(b, male)`, for the namespaced `{A,B} → {B,C}` scenario. -/
def tagsAB : TagsState :=
  { rows := [⟨10, "a".data, "A".data⟩, ⟨11, "b".data, "B".data⟩], nextId := 12,
    rels := [⟨1, 10, "female".data⟩, ⟨1, 11, "male".data⟩] }

/-- A versioning input for archive 1 of `oneArchiveDb`: same identity,
changed hash, and the artist list carried along. -/
def dVerC4 : UpsertArchiveData :=
  { emptyUpsertData with
    id := some 1
    hash := some "h2".data
    artists := some ["X".data] }

/-- The archive row stored in `oneArchiveDb`. -/
def recC4 : ArchiveRow :=
  { id := 1, slug := "s".data, title := "T".data, description := none,
    path := "/p".data, hash := "h1".data, pages := 10, size := 100,
    thumbnail := 1, language := none, released_at := none,
    has_metadata := true, deleted_at := none, updated_at := none }

/-! ## Theorems -/

theorem splitCh_ne_nil (sep : Char) (l : List Char) : splitCh sep l ≠ [] := by
  cases l with
  | nil => simp [splitCh]
  | cons c cs =>
    rw [splitCh]
    rcases h : splitCh sep cs with _ | ⟨a, as⟩
    · simp
    · show ¬(if c = sep then [] :: a :: as else (c :: a) :: as) = []
      by_cases hc : c = sep <;> simp [hc]

theorem mem_of_mem_splitCh {sep : Char} {l p : List Char} {c : Char}
    (hp : p ∈ splitCh sep l) (hc : c ∈ p) : c ∈ l := by
  induction l generalizing p with
  | nil =>
    simp only [splitCh, List.mem_singleton] at hp
    subst hp
    simp at hc
  | cons a as ih =>
    rw [splitCh] at hp
    rcases h : splitCh sep as with _ | ⟨q, qs⟩
    · exact absurd h (splitCh_ne_nil _ _)
    · rw [h] at hp
      have hp2 : p ∈ (if a = sep then [] :: q :: qs else (a :: q) :: qs) := hp
      by_cases hsep : a = sep
      · rw [if_pos hsep] at hp2
        rcases List.mem_cons.1 hp2 with h1 | h1
        · subst h1; simp at hc
        · exact List.mem_cons_of_mem _ (ih (by rw [h]; exact h1) hc)
      · rw [if_neg hsep] at hp2
        rcases List.mem_cons.1 hp2 with h1 | h1
        · subst h1
          rcases List.mem_cons.1 hc with h2 | h2
          · exact h2 ▸ List.mem_cons_self _ _
          · exact List.mem_cons_of_mem _
              (ih (by rw [h]; exact List.mem_cons_self q qs) h2)
        · exact List.mem_cons_of_mem _
            (ih (by rw [h]; exact List.mem_cons_of_mem q h1) hc)

theorem mem_getLastD_splitCh {sep : Char} {l : List Char} {c : Char}
    (hc : c ∈ (splitCh sep l).getLastD []) : c ∈ l := by
  rcases h : splitCh sep l with _ | ⟨q, qs⟩
  · exact absurd h (splitCh_ne_nil _ _)
  · rw [h] at hc
    have hmem : (q :: qs).getLastD [] ∈ q :: qs := by
      rw [List.getLastD_eq_getLast?, List.getLast?_eq_getLast _ (by simp), Option.getD_some]
      exact List.getLast_mem _
    exact mem_of_mem_splitCh (p := (q :: qs).getLastD []) (by rw [h]; exact hmem) hc

theorem mem_trimEndDollar {t : List Char} {c : Char} (hc : c ∈ trimEndDollar t) :
    c ∈ t := by
  unfold trimEndDollar at hc
  rw [List.mem_reverse] at hc
  have := (List.dropWhile_sublist (l := t.reverse) (fun c => c = '$')).mem hc
  rwa [List.mem_reverse] at this

theorem mem_tokDollar {t : List Char} {c : Char} (hc : c ∈ tokDollar t) :
    c ∈ t ∨ c = ':' ∨ c = '*' := by
  unfold tokDollar at hc
  split at hc
  · exact .inl (mem_trimEndDollar hc)
  · rcases List.mem_append.1 hc with h | h
    · exact .inl h
    · simp at h
      exact .inr h

theorem mem_tokNeg {t : List Char} {c : Char} (hc : c ∈ tokNeg t) :
    c ∈ t ∨ c = '!' := by
  unfold tokNeg at hc
  split at hc
  · rcases List.mem_cons.1 hc with h | h
    · exact .inr h
    · exact .inl (List.mem_cons_of_mem _ h)
  · exact .inl hc

theorem mem_joinCh {sep : Char} {ps : List (List Char)} {c : Char}
    (hc : c ∈ joinCh sep ps) : c = sep ∨ ∃ p ∈ ps, c ∈ p := by
  induction ps with
  | nil => simp [joinCh] at hc
  | cons p ps ih =>
    cases ps with
    | nil =>
      simp only [joinCh] at hc
      exact .inr ⟨p, by simp, hc⟩
    | cons q qs =>
      simp only [joinCh] at hc
      rcases List.mem_append.1 hc with h | h
      · exact .inr ⟨p, by simp, h⟩
      · rcases List.mem_cons.1 h with h1 | h1
        · exact .inl h1
        · rcases ih h1 with h2 | ⟨r, hr, hcr⟩
          · exact .inl h2
          · exact .inr ⟨r, List.mem_cons_of_mem _ hr, hcr⟩

theorem mem_parseQueryTokens {l : List Char} {c : Char}
    (hc : c ∈ parseQueryTokens l) :
    c ∈ l ∨ c ∈ [' ', ':', '*', '!', '&'] := by
  unfold parseQueryTokens at hc
  rcases mem_joinCh hc with h | ⟨p, hp, hcp⟩
  · subst h; simp
  · rcases List.mem_map.1 hp with ⟨s, hs, rfl⟩
    rcases mem_tokNeg hcp with h1 | h1
    · rcases mem_tokDollar h1 with h2 | h2 | h2
      · have h3 : c ∈ l.map (fun c => if c = '&' then ' ' else c) :=
          mem_of_mem_splitCh hs (mem_getLastD_splitCh h2)
        rcases List.mem_map.1 h3 with ⟨a, ha, haeq⟩
        by_cases hamp : a = '&'
        · subst hamp; simp at haeq; subst haeq; simp
        · simp only [if_neg hamp] at haeq; subst haeq; exact .inl ha
      · subst h2; simp
      · subst h2; simp
    · subst h1; simp

theorem splitCh_eq_singleton {sep : Char} {l : List Char} (h : sep ∉ l) :
    splitCh sep l = [l] := by
  induction l with
  | nil => rfl
  | cons c cs ih =>
    have hcs : sep ∉ cs := fun hmem => h (List.mem_cons_of_mem _ hmem)
    have hc : c ≠ sep := fun hh => h (hh ▸ List.mem_cons_self _ _)
    simp only [splitCh, ih hcs, if_neg hc]

theorem finalizeSegs_singleton (s : List Char) : finalizeSegs [s] = s := by
  simp [finalizeSegs, mapWithIdx, joinCh]

theorem parse_query_eq_tokens {l : List Char} (h0 : l ≠ [])
    (h : '|' ∉ l) : parse_query l = parseQueryTokens l := by
  have h1 : '|' ∉ parseQueryTokens l := by
    intro hin
    rcases mem_parseQueryTokens hin with h2 | h2
    · exact h h2
    · simp at h2
  rw [parse_query, if_neg h0]
  simp only [splitCh_eq_singleton h1, List.length_singleton, gt_iff_lt,
    lt_irrefl, if_false, finalizeSegs_singleton]

/-- Claim C1 (counterexample): the spec's third compiler example is not
the literal output of `parse_query`: the input `foo|bar` does not
compile to the string `(foo:*)|(bar:*)` (the code produces
`(foo:*|bar:*)` instead), neither at `parse_query` itself nor through
the full `search` pipeline. -/
theorem parse_query_or_example_ne_spec :
    parse_query "foo|bar".data ≠ "(foo:*)|(bar:*)".data ∧
    searchRanking "foo|bar".data ≠ "(foo:*)|(bar:*)".data := by
  exact ⟨by decide, by decide⟩

/-- Claim C1 (amended): `"foo bar"` compiles to `"foo:*&bar:*"`,
`"foo$"` to `"foo"`, and `"foo|bar"` to `"(foo:*|bar:*)"` — a string
`tsquery`-equal to a disjunction of the two prefix atoms, hence
equivalent to the spec's `"(foo:*)|(bar:*)"` — both at `parse_query`
and through the `search` pipeline. -/
theorem parse_query_examples :
    parse_query "foo bar".data = "foo:*&bar:*".data ∧
    parse_query "foo$".data = "foo".data ∧
    parse_query "foo|bar".data = "(foo:*|bar:*)".data ∧
    tsRead (parse_query "foo|bar".data) =
      some (.orr (.atom "foo:*".data) (.atom "bar:*".data)) ∧
    searchRanking "foo bar".data = "foo:*&bar:*".data ∧
    searchRanking "foo$".data = "foo".data ∧
    searchRanking "foo|bar".data = "(foo:*|bar:*)".data := by
  refine ⟨by decide, by decide, by decide, by decide, by decide, by decide, by decide⟩

/-- Claim C2 (counterexample): the input `a&b|c&d` compiles to
`a:*&(b:*|c:*)&d:*`, which under the `tsquery` grammar denotes
`a ∧ (b ∨ c) ∧ d`; at the assignment making exactly `a` and `b` true
this is false while the claimed left-to-right grouping
`(a ∧ b) ∨ (c ∧ d)` is true, so the output is not equivalent to
`(A&B)|(C&D)`. -/
theorem parse_query_grouping_not_left_to_right :
    parse_query "a&b|c&d".data = "a:*&(b:*|c:*)&d:*".data ∧
    Option.map (tsEval sigC2) (tsRead (parse_query "a&b|c&d".data)) = some false ∧
    tsEval sigC2
      (.orr (.an (.atom "a:*".data) (.atom "b:*".data))
            (.an (.atom "c:*".data) (.atom "d:*".data))) = true := by
  refine ⟨by decide, by decide, by decide⟩

/-- Claim C2 (amended): the compiler inserts parentheses at the first
AND/OR boundary scanned from the relevant end of each `|`-separated
segment, which groups each `|` with its immediately adjacent tokens:
`A&B|C&D` compiles to an expression whose `tsquery` reading is
`A ∧ (B ∨ C) ∧ D`; an input with no `|` is left ungrouped (its
compilation is just the token pass). -/
theorem parse_query_grouping :
    tsRead (parse_query "a&b|c&d".data) =
      some (.an (.an (.atom "a:*".data)
                     (.orr (.atom "b:*".data) (.atom "c:*".data)))
                (.atom "d:*".data)) ∧
    ∀ l : List Char, l ≠ [] → '|' ∉ l → parse_query l = parseQueryTokens l := by
  exact ⟨by decide, fun _ h0 h => parse_query_eq_tokens h0 h⟩

/-- Witness for `parse_query_grouping`: the hypotheses hold at the
concrete ungrouped input `foo bar`. -/
theorem parse_query_grouping_witness :
    ("foo bar".data ≠ ([] : List Char)) ∧ '|' ∉ "foo bar".data ∧
    parse_query "foo bar".data = parseQueryTokens "foo bar".data :=
  ⟨by decide, by decide,
   parse_query_grouping.2 "foo bar".data (by decide) (by decide)⟩

theorem pageSlice_one (ids : List Int) : pageSlice ids 1 = ids.take 24 := by
  simp [pageSlice]

theorem pageSlice_shift (ids : List Int) (k : Nat) :
    pageSlice ids (k + 2) = pageSlice (ids.drop 24) (k + 1) := by
  simp only [pageSlice, Nat.add_sub_cancel, List.drop_drop]
  have h24 : (k + 2 - 1) * 24 = 24 + k * 24 := by omega
  rw [h24]

theorem concatPages_covers {ids : List Int} {m : Nat}
    (h : ids.length ≤ 24 * m) : concatPages ids m = ids := by
  induction m generalizing ids with
  | zero =>
    have : ids = [] := List.length_eq_zero.1 (by omega)
    subst this
    simp [concatPages]
  | succ m ih =>
    unfold concatPages
    rw [List.range_succ_eq_map]
    simp only [List.map_cons, List.map_map, List.flatten_cons]
    have h2 : (List.range m).map ((fun k => pageSlice ids (k + 1)) ∘ (· + 1)) =
        (List.range m).map (fun k => pageSlice (ids.drop 24) (k + 1)) := by
      apply List.map_congr_left
      intro k _
      show pageSlice ids (k + 1 + 1) = pageSlice (ids.drop 24) (k + 1)
      exact pageSlice_shift ids k
    rw [h2, pageSlice_one]
    have h3 : (ids.drop 24).length ≤ 24 * m := by
      simp only [List.length_drop]
      omega
    show ids.take 24 ++ concatPages (ids.drop 24) m = ids
    rw [ih h3, List.take_append_drop]

/-- Claim C6: the page slice for 1-indexed page `p` is
`ids[(p-1)*24, p*24)` clamped to the list's bounds; concatenating the
slices of pages `1, …, m` reproduces the full ordered candidate list
(each id exactly once, in order) as soon as `m` pages cover it; and the
total returned by `search` is the length of the full pre-pagination
candidate list, not the page length. -/
theorem search_pagination :
    (∀ (ids : List Int) (p : Nat), 1 ≤ p →
       pageSlice ids p = (ids.take (p * 24)).drop ((p - 1) * 24)) ∧
    (∀ (ids : List Int) (m : Nat), ids.length ≤ 24 * m → concatPages ids m = ids) ∧
    (∀ (ids : List Int) (p : Nat), (searchPage ids p).2 = ids.length) := by
  refine ⟨fun ids p hp => ?_, fun ids m h => concatPages_covers h, fun ids p => rfl⟩
  rw [List.drop_take]
  have : p * 24 - (p - 1) * 24 = 24 := by
    cases p with
    | zero => omega
    | succ q => simp [Nat.succ_mul]
  rw [this]
  rfl

/-- Witness for `search_pagination`: the slice arithmetic holds at page
1 of a concrete candidate list, and one page covers it. -/
theorem search_pagination_witness :
    (1 ≤ 1 ∧ pageSlice [(1 : Int), 2, 3] 1 =
      (([(1 : Int), 2, 3].take (1 * 24)).drop ((1 - 1) * 24))) ∧
    ([(1 : Int), 2, 3].length ≤ 24 * 1 ∧ concatPages [(1 : Int), 2, 3] 1 = [1, 2, 3]) :=
  ⟨⟨by decide, search_pagination.1 [1, 2, 3] 1 (by decide)⟩,
   ⟨by decide, search_pagination.2.1 [1, 2, 3] 1 (by decide)⟩⟩

theorem lswap_perm (l : List Int) (i j : Nat) : (lswap l i j).Perm l := by
  unfold lswap
  split
  case isFalse => exact List.Perm.refl l
  case isTrue h =>
    rcases h with ⟨hi, hj⟩
    rw [List.perm_iff_count]
    intro a
    have hj2 : j < (l.set i (l.get ⟨j, hj⟩)).length := by simpa using hj
    rw [List.count_set _ _ _ _ hj2, List.count_set _ _ _ _ hi]
    simp only [List.getElem_set, List.get_eq_getElem]
    have hcount_i : (if l[i] == a then 1 else 0) ≤ List.count a l := by
      split
      case isTrue hb =>
        have : a ∈ l := by
          rw [← beq_iff_eq.1 hb]
          exact List.getElem_mem hi
        exact List.count_pos_iff.2 this
      case isFalse => omega
    have hcount_j : (if l[j] == a then 1 else 0) ≤ List.count a l := by
      split
      case isTrue hb =>
        have : a ∈ l := by
          rw [← beq_iff_eq.1 hb]
          exact List.getElem_mem hj
        exact List.count_pos_iff.2 this
      case isFalse => omega
    by_cases hij : i = j
    · subst hij
      simp only [ite_self]
      omega
    · rw [if_neg hij]
      omega

theorem fyAux_perm (n rng : Nat) (l : List Int) :
    (fyAux n rng l).Perm l := by
  induction n generalizing rng l with
  | zero => exact List.Perm.refl l
  | succ i ih =>
    rw [fyAux]
    exact List.Perm.trans (ih _ _) (lswap_perm _ _ _)

set_option maxRecDepth 10000 in
/-- Claim C5: the shuffle seed is the SHA-256 digest of the caller's
seed string, taken as the empty string when none is given (conjunct 3
checks the digest of the default seed against the published SHA-256
value of the empty message); the shuffled order is a function of the
seed string and candidate list alone, so two runs with the same seed
string over the same phase-1 id list order identically (conjunct 2,
with an absent seed behaving as the empty string); and the output is a
permutation of the input list (conjunct 1). -/
theorem search_random_determinism :
    (∀ (seed : Option (List Char)) (ids : List Int),
       (shuffleIds seed ids).Perm ids) ∧
    (∀ (s1 s2 : Option (List Char)) (ids : List Int),
       s1.getD [] = s2.getD [] → shuffleIds s1 ids = shuffleIds s2 ids) ∧
    sha256 (strBytes ((none : Option (List Char)).getD [])) =
      [0xe3, 0xb0, 0xc4, 0x42, 0x98, 0xfc, 0x1c, 0x14,
       0x9a, 0xfb, 0xf4, 0xc8, 0x99, 0x6f, 0xb9, 0x24,
       0x27, 0xae, 0x41, 0xe4, 0x64, 0x9b, 0x93, 0x4c,
       0xa4, 0x95, 0x99, 0x1b, 0x78, 0x52, 0xb8, 0x55] := by
  refine ⟨fun seed ids => fyAux_perm _ _ _,
          fun s1 s2 ids h => by unfold shuffleIds; rw [h],
          by decide⟩

/-- Witness for `search_random_determinism`: an absent seed and the
empty seed string shuffle a concrete id list identically. -/
theorem search_random_determinism_witness :
    ((none : Option (List Char)).getD [] = (some []).getD []) ∧
    shuffleIds none [1, 2, 3] = shuffleIds (some []) [1, 2, 3] :=
  ⟨rfl, search_random_determinism.2.1 none (some []) [1, 2, 3] rfl⟩

theorem runsAux_all {p : Char → Bool} (l : List Char) :
    ∀ acc : List Char, (∀ c ∈ acc, p c = false) →
    ∀ w ∈ runsAux p l acc, w ≠ [] ∧ ∀ c ∈ w, p c = false := by
  induction l with
  | nil =>
    intro acc hacc w hw
    simp only [runsAux] at hw
    split at hw
    · simp at hw
    case isFalse hne =>
      simp only [List.mem_singleton] at hw
      subst hw
      refine ⟨by simpa using hne, fun c hc => hacc c (List.mem_reverse.1 hc)⟩
  | cons c cs ih =>
    intro acc hacc w hw
    simp only [runsAux] at hw
    by_cases hpc : p c
    · rw [if_pos hpc] at hw
      split at hw
      · exact ih [] (by simp) w hw
      · next hne =>
          rcases List.mem_cons.1 hw with h1 | h1
          · subst h1
            refine ⟨by simpa using hne, fun d hd => hacc d (List.mem_reverse.1 hd)⟩
          · exact ih [] (by simp) w h1
    · rw [if_neg hpc] at hw
      refine ih (c :: acc) ?_ w hw
      intro d hd
      rcases List.mem_cons.1 hd with h1 | h1
      · subst h1; simpa using hpc
      · exact hacc d h1

theorem runsAux_word {p : Char → Bool} (w : List Char) :
    ∀ (l acc : List Char), (∀ c ∈ w, p c = false) →
    runsAux p (w ++ l) acc = runsAux p l (w.reverse ++ acc) := by
  induction w with
  | nil => intro l acc _; simp
  | cons d w2 ih =>
    intro l acc hw
    have hpd : p d = false := hw d (List.mem_cons_self _ _)
    simp only [List.cons_append, runsAux, hpd, Bool.false_eq_true, if_false]
    show runsAux p (w2 ++ l) (d :: acc) = runsAux p l ((d :: w2).reverse ++ acc)
    rw [ih l (d :: acc) (fun c hc => hw c (List.mem_cons_of_mem _ hc))]
    simp

theorem mem_of_mem_runsAux {p : Char → Bool} (l : List Char) :
    ∀ (acc w : List Char), w ∈ runsAux p l acc → ∀ c ∈ w, c ∈ l ∨ c ∈ acc := by
  induction l with
  | nil =>
    intro acc w hw c hc
    simp only [runsAux] at hw
    split at hw
    · simp at hw
    · simp only [List.mem_singleton] at hw
      subst hw
      exact .inr (List.mem_reverse.1 hc)
  | cons a as ih =>
    intro acc w hw c hc
    simp only [runsAux] at hw
    by_cases hpa : p a
    · rw [if_pos hpa] at hw
      split at hw
      · rcases ih [] w hw c hc with h | h
        · exact .inl (List.mem_cons_of_mem _ h)
        · simp at h
      · rcases List.mem_cons.1 hw with h1 | h1
        · subst h1
          exact .inr (List.mem_reverse.1 hc)
        · rcases ih [] w h1 c hc with h | h
          · exact .inl (List.mem_cons_of_mem _ h)
          · simp at h
    · rw [if_neg hpa] at hw
      rcases ih (a :: acc) w hw c hc with h | h
      · exact .inl (List.mem_cons_of_mem _ h)
      · rcases List.mem_cons.1 h with h1 | h1
        · exact .inl (h1 ▸ List.mem_cons_self _ _)
        · exact .inr h1

theorem runsOf_joinCh {p : Char → Bool} (hsp : p ' ' = true) :
    ∀ ws : List (List Char), (∀ w ∈ ws, w ≠ [] ∧ ∀ c ∈ w, p c = false) →
    runsOf p (joinCh ' ' ws) = ws := by
  intro ws
  induction ws with
  | nil => intro _; rfl
  | cons w ws2 ih =>
    intro hws
    rcases hws w (List.mem_cons_self _ _) with ⟨hne, hchars⟩
    cases ws2 with
    | nil =>
      show runsOf p (joinCh ' ' [w]) = [w]
      have : joinCh ' ' [w] = w ++ [] := by simp [joinCh]
      rw [this]
      unfold runsOf
      rw [runsAux_word w [] [] hchars]
      simp only [runsAux, List.append_nil]
      rw [if_neg (by simpa using hne)]
      simp
    | cons w2 ws3 =>
      show runsOf p (w ++ ' ' :: joinCh ' ' (w2 :: ws3)) = w :: w2 :: ws3
      unfold runsOf
      rw [runsAux_word w _ [] hchars]
      simp only [runsAux, hsp, if_true, List.append_nil]
      rw [if_neg (by simpa using hne)]
      rw [List.reverse_reverse]
      have := ih (fun u hu => hws u (List.mem_cons_of_mem _ hu))
      unfold runsOf at this
      rw [this]

theorem mem_trim_whitespace {l : List Char} {c : Char}
    (hc : c ∈ trim_whitespace l) : c = ' ' ∨ c ∈ l := by
  unfold trim_whitespace at hc
  rcases mem_joinCh hc with h | ⟨w, hw, hcw⟩
  · exact .inl h
  · rcases mem_of_mem_runsAux l [] w hw c hcw with h | h
    · exact .inr h
    · simp at h

theorem trim_whitespace_idem (l : List Char) :
    trim_whitespace (trim_whitespace l) = trim_whitespace l := by
  unfold trim_whitespace
  exact congrArg (joinCh ' ')
    (runsOf_joinCh (by decide) _ (fun w hw => runsAux_all l [] (by simp) w hw))

theorem stripChars_trim_stripChars (q : List Char) :
    stripChars (trim_whitespace (stripChars q)) = trim_whitespace (stripChars q) := by
  unfold stripChars
  apply List.filter_eq_self.2
  intro c hc
  rcases mem_trim_whitespace hc with h | h
  · subst h; decide
  · exact (List.mem_filter.1 h).2

theorem sanitizeValue_idem (q : List Char) :
    sanitizeValue (sanitizeValue q) = sanitizeValue q := by
  show trim_whitespace (stripChars (trim_whitespace (stripChars q))) =
    trim_whitespace (stripChars q)
  rw [stripChars_trim_stripChars, trim_whitespace_idem]

/-- Claim C8 (counterexample): the facet predicate list is compiled
from the raw query string, not from the sanitized one: for the raw
input `artist:jane~doe` (which sanitization would turn into
`artist:janedoe`), `search` emits the predicate value `jane~doe`,
while compiling the sanitized string would emit `janedoe`. -/
theorem search_predicates_from_raw :
    searchPredicates "artist:jane~doe".data =
      [{ negated := false, facet := "artist".data, groups := [["jane~doe".data]] }] ∧
    predicatesOf (sanitizeValue "artist:jane~doe".data) =
      [{ negated := false, facet := "artist".data, groups := [["janedoe".data]] }] ∧
    searchPredicates "artist:jane~doe".data ≠
      predicatesOf (sanitizeValue "artist:jane~doe".data) := by
  refine ⟨by decide, by decide, by decide⟩

/-- Claim C8 (amended): the free-text ranking expression is derived
from the sanitized string — sanitizing the input first does not change
it — while the facet predicate list is derived from the raw query
string and is changed by pre-sanitization on inputs that sanitization
rewrites. -/
theorem search_ranking_sanitized :
    (∀ q : List Char, searchRanking q = searchRanking (sanitizeValue q)) ∧
    searchPredicates "artist:jane~doe".data ≠
      predicatesOf (sanitizeValue "artist:jane~doe".data) := by
  refine ⟨fun q => ?_, by decide⟩
  show parse_query (trim_whitespace (clean_value (sanitizeValue q))) =
    parse_query (trim_whitespace (clean_value (sanitizeValue (sanitizeValue q))))
  rw [sanitizeValue_idem]

/-- Claim C9: `upsert_archive` fails with `InsufficientData` exactly
when no live archive matches the input's id, path or hash and at least
one of the required fields title, path, hash, pages, size, thumbnail is
absent; and on any failure the transaction is rolled back, so the store
is unchanged (no archive row and no relation row is created). -/
theorem upsert_archive_insufficient (d : UpsertArchiveData) (st : DbState) :
    (upsert_archive d st = .error .insufficientData ↔
      (st.archives.find? (archiveMatch d) = none ∧
       (d.title = none ∨ d.path = none ∨ d.hash = none ∨ d.pages = none ∨
        d.size = none ∨ d.thumbnail = none))) ∧
    (∀ e, upsert_archive d st = .error e →
      (upsertArchiveRun d st).1 = st ∧ (upsertArchiveRun d st).2 = .error e) := by
  constructor
  · rcases hfind : st.archives.find? (archiveMatch d) with _ | rec
    · simp only [upsert_archive, hfind]
      rcases d.title with _ | t <;> rcases d.path with _ | p <;>
        rcases d.hash with _ | h <;> rcases d.pages with _ | pg <;>
        rcases d.size with _ | sz <;> rcases d.thumbnail with _ | th <;> simp
    · simp only [upsert_archive, hfind]
      have hne : ¬ (some rec = none) := by simp
      by_cases hc : d.hash.isSome = true ∧ d.hash ≠ some rec.hash
      · rw [if_pos hc]
        simp only [copy_archive]
        rcases hcp : st.archives.find? (fun r => r.hash = rec.hash) with _ | r2 <;>
          simp [hcp]
      · rw [if_neg hc]
        simp [hfind]
  · intro e h
    unfold upsertArchiveRun
    rw [h]
    exact ⟨rfl, rfl⟩

/-- Witness for `upsert_archive_insufficient`: on the empty store, an
input carrying only a title fails with `InsufficientData` and changes
nothing. -/
theorem upsert_archive_insufficient_witness :
    upsert_archive { emptyUpsertData with title := some "N".data } emptyDb =
      .error .insufficientData ∧
    (upsertArchiveRun { emptyUpsertData with title := some "N".data } emptyDb).1 =
      emptyDb :=
  ⟨by decide,
   ((upsert_archive_insufficient { emptyUpsertData with title := some "N".data }
      emptyDb).2 .insufficientData (by decide)).1⟩

theorem upsert_relations_archives (data : Relations) (a : Int) (st : DbState) :
    (upsert_relations data a st).archives = st.archives := rfl

/-- Claim C7: on an update-in-place (a live archive matched and the
input hash absent or unchanged), each present optional field overwrites
its column and each absent field leaves its column untouched — in
particular the hash and id are never written — except that
`description`, `language` and `deleted_at` are always written,
including to null when absent; rows of other archives are untouched. -/
theorem upsert_archive_update_fields (d : UpsertArchiveData) (st : DbState)
    (rec : ArchiveRow) (hfind : st.archives.find? (archiveMatch d) = some rec)
    (hhash : d.hash = none ∨ d.hash = some rec.hash) :
    ∃ st3, upsert_archive d st = .ok (st3, rec.id) ∧
      (∀ r ∈ st.archives, r.id ≠ rec.id → r ∈ st3.archives) ∧
      ∃ r2 ∈ st3.archives, r2.id = rec.id ∧ r2.hash = rec.hash ∧
        r2.title = d.title.getD rec.title ∧
        r2.slug = d.slug.getD rec.slug ∧
        r2.description = d.description ∧
        r2.path = d.path.getD rec.path ∧
        r2.pages = d.pages.getD rec.pages ∧
        r2.size = d.size.getD rec.size ∧
        r2.thumbnail = d.thumbnail.getD rec.thumbnail ∧
        r2.language = d.language ∧
        r2.released_at = (if d.released_at.isSome then d.released_at
                          else rec.released_at) ∧
        r2.deleted_at = d.deleted_at ∧
        r2.has_metadata = d.has_metadata.getD rec.has_metadata ∧
        r2.updated_at = some st.now := by
  have hcond : ¬ (d.hash.isSome = true ∧ d.hash ≠ some rec.hash) := by
    rcases hhash with h | h <;> simp [h]
  rw [upsert_archive, hfind]
  simp only [if_neg hcond]
  refine ⟨_, rfl, ?_, ?_⟩
  · intro r hr hne
    rw [upsert_relations_archives]
    exact List.mem_map.2 ⟨r, hr, by rw [if_neg hne]⟩
  · refine ⟨applyArchiveUpdate d rec.path st.now rec, ?_, ?_⟩
    · rw [upsert_relations_archives]
      exact List.mem_map.2 ⟨rec, List.mem_of_find?_eq_some hfind, by rw [if_pos rfl]⟩
    · refine ⟨rfl, rfl, ?_, ?_, rfl, ?_, ?_, ?_, ?_, rfl, ?_, rfl, ?_, rfl⟩
      · rcases hd : d.title with _ | t <;> simp [applyArchiveUpdate, hd]
      · rcases hd : d.slug with _ | s <;> simp [applyArchiveUpdate, hd]
      · rcases hd : d.path with _ | p
        · simp [applyArchiveUpdate, hd]
        · simp only [applyArchiveUpdate, hd, Option.getD_some]
          by_cases hne : p ≠ rec.path
          · rw [if_pos hne]
          · rw [if_neg hne]
            exact (not_not.1 hne).symm
      · rcases hd : d.pages with _ | p <;> simp [applyArchiveUpdate, hd]
      · rcases hd : d.size with _ | s <;> simp [applyArchiveUpdate, hd]
      · rcases hd : d.thumbnail with _ | t <;> simp [applyArchiveUpdate, hd]
      · rcases hd : d.released_at with _ | t <;> simp [applyArchiveUpdate, hd]
      · rcases hd : d.has_metadata with _ | b <;> simp [applyArchiveUpdate, hd]

theorem sourceFold_keeps_name (aid : Int) (inserts : List (List Char × Option (List Char))) :
    ∀ (tbl : List SourceRow) (row : SourceRow), row ∈ tbl →
    ∃ u, SourceRow.mk row.archiveId row.name u ∈
      inserts.foldl (fun acc s => applySourceInsert acc aid s) tbl := by
  induction inserts with
  | nil =>
    intro tbl row hrow
    exact ⟨row.url, hrow⟩
  | cons s0 rest ih =>
    intro tbl row hrow
    simp only [List.foldl_cons]
    have hstep : ∃ u0, SourceRow.mk row.archiveId row.name u0 ∈
        applySourceInsert tbl aid s0 := by
      unfold applySourceInsert
      split
      · by_cases hu : row.archiveId = aid ∧ row.name = s0.1
        · exact ⟨s0.2, List.mem_map.2 ⟨row, hrow, by rw [if_pos hu]⟩⟩
        · exact ⟨row.url, List.mem_map.2 ⟨row, hrow, by rw [if_neg hu]⟩⟩
      · exact ⟨row.url, List.mem_append.2 (.inl hrow)⟩
    rcases hstep with ⟨u0, hu0⟩
    rcases ih (applySourceInsert tbl aid s0) (SourceRow.mk row.archiveId row.name u0) hu0
      with ⟨u, hu⟩
    exact ⟨u, hu⟩

theorem sourceFold_frame (aid : Int) (inserts : List (List Char × Option (List Char))) :
    ∀ (tbl : List SourceRow) (row : SourceRow),
    (∀ s ∈ inserts, ¬ (row.archiveId = aid ∧ s.1 = row.name)) →
    (row ∈ inserts.foldl (fun acc s => applySourceInsert acc aid s) tbl ↔ row ∈ tbl) := by
  induction inserts with
  | nil => intro tbl row _; rfl
  | cons s0 rest ih =>
    intro tbl row hcond
    simp only [List.foldl_cons]
    rw [ih (applySourceInsert tbl aid s0) row
      (fun s hs => hcond s (List.mem_cons_of_mem _ hs))]
    have hc0 : ¬ (row.archiveId = aid ∧ s0.1 = row.name) :=
      hcond s0 (List.mem_cons_self _ _)
    unfold applySourceInsert
    split
    · constructor
      · intro hmem
        rcases List.mem_map.1 hmem with ⟨r, hr, hf⟩
        by_cases hu : r.archiveId = aid ∧ r.name = s0.1
        · rw [if_pos hu] at hf
          exfalso
          apply hc0
          rw [← hf]
          exact ⟨hu.1, hu.2.symm⟩
        · rw [if_neg hu] at hf
          exact hf ▸ hr
      · intro hmem
        refine List.mem_map.2 ⟨row, hmem, ?_⟩
        rw [if_neg (fun hu => hc0 ⟨hu.1, hu.2.symm⟩)]
    · constructor
      · intro hmem
        rcases List.mem_append.1 hmem with h | h
        · exact h
        · simp only [List.mem_singleton] at h
          exfalso
          apply hc0
          rw [h]
          exact ⟨rfl, rfl⟩
      · intro hmem
        exact List.mem_append.2 (.inl hmem)

theorem sourceFold_inserts (aid : Int) (inserts : List (List Char × Option (List Char))) :
    ∀ tbl : List SourceRow, (inserts.map (fun s => s.1)).Nodup →
    ∀ s ∈ inserts, SourceRow.mk aid s.1 s.2 ∈
      inserts.foldl (fun acc s => applySourceInsert acc aid s) tbl := by
  induction inserts with
  | nil => intro tbl _ s hs; simp at hs
  | cons s0 rest ih =>
    intro tbl hnodup s hs
    simp only [List.foldl_cons]
    rcases List.mem_cons.1 hs with h | h
    · subst h
      have hmem0 : SourceRow.mk aid s.1 s.2 ∈ applySourceInsert tbl aid s := by
        unfold applySourceInsert
        split
        case isTrue hany =>
          rcases List.any_eq_true.1 hany with ⟨r, hr, hcond⟩
          have hcond2 : r.archiveId = aid ∧ r.name = s.1 := by
            simpa using hcond
          refine List.mem_map.2 ⟨r, hr, ?_⟩
          rw [if_pos hcond2]
          cases r
          simp only [SourceRow.mk.injEq]
          exact ⟨hcond2.1, hcond2.2, trivial⟩
        · exact List.mem_append.2 (.inr (List.mem_singleton.2 rfl))
      rw [sourceFold_frame aid rest _ _ ?hc]
      · exact hmem0
      case hc =>
        intro s2 hs2 hcontra
        rcases List.nodup_cons.1 hnodup with ⟨hnotin, _⟩
        have hname : s2.1 = s.1 := hcontra.2
        exact hnotin (show s.1 ∈ rest.map (fun s => s.1) from
          hname ▸ List.mem_map.2 ⟨s2, hs2, rfl⟩)
    · exact ih (applySourceInsert tbl aid s0) (List.nodup_cons.1 hnodup).2 s h

/-- Claim C10: `upsert_archive` always synchronizes sources in merge
mode (`upsert_relations` passes `merge = true`), so an upsert never
deletes an `archive_sources` row: every existing row keeps a row with
its `(archive, name)` identity (possibly with an upserted url); rows
whose name is absent from the input — and all rows of other archives —
are untouched; and (for duplicate-free input names) every input source
ends up stored under the archive with its url. -/
theorem upsert_relations_sources_merge (d : Relations) (aid : Int) (st : DbState) :
    (∀ row ∈ st.sources, ∃ u,
       SourceRow.mk row.archiveId row.name u ∈ (upsert_relations d aid st).sources) ∧
    (∀ row ∈ st.sources,
       (∀ xs, d.sources = some xs → ∀ s ∈ xs, ¬ (row.archiveId = aid ∧ s.1 = row.name)) →
       row ∈ (upsert_relations d aid st).sources) ∧
    (∀ row : SourceRow, row.archiveId ≠ aid →
       (row ∈ (upsert_relations d aid st).sources ↔ row ∈ st.sources)) ∧
    (∀ xs, d.sources = some xs → (xs.map (fun s => s.1)).Nodup →
       ∀ s ∈ xs, SourceRow.mk aid s.1 s.2 ∈ (upsert_relations d aid st).sources) := by
  have hsrc : (upsert_relations d aid st).sources =
      syncOpt d.sources (fun xs tbl => upsert_sources xs aid true tbl) st.sources := rfl
  rcases hd : d.sources with _ | xs
  · rw [hsrc, hd]
    exact ⟨fun row hrow => ⟨row.url, hrow⟩, fun row hrow _ => hrow,
           fun row _ => Iff.rfl, fun xs hxs => by simp at hxs⟩
  · have hfold : upsert_sources xs aid true st.sources =
        (xs.filter (fun s =>
          ¬ (st.sources.filter (fun r => r.archiveId = aid)).any
              (fun r => r.name = s.1 ∧ r.url = s.2))).foldl
          (fun acc s => applySourceInsert acc aid s) st.sources := by
      rfl
    rw [hsrc, hd]
    simp only [syncOpt]
    rw [hfold]
    refine ⟨fun row hrow => sourceFold_keeps_name aid _ st.sources row hrow,
            fun row hrow hcond => ?_, fun row hne => ?_, ?_⟩
    · rw [sourceFold_frame]
      · exact hrow
      · intro s hsf
        exact hcond xs rfl s (List.mem_filter.1 hsf).1
    · rw [sourceFold_frame]
      intro s _ hcontra
      exact hne hcontra.1
    · intro xs2 hxs2 hnodup s hs
      cases hxs2
      by_cases hins : (st.sources.filter (fun r => r.archiveId = aid)).any
          (fun r => r.name = s.1 ∧ r.url = s.2) = true
      · rcases List.any_eq_true.1 hins with ⟨r, hr, hcond⟩
        have hcond2 : r.name = s.1 ∧ r.url = s.2 := by simpa using hcond
        have hraid : r.archiveId = aid := by
          have := (List.mem_filter.1 hr).2
          simpa using this
        have hrmk : r = SourceRow.mk aid s.1 s.2 := by
          cases r
          simp only [SourceRow.mk.injEq]
          exact ⟨hraid, hcond2.1, hcond2.2⟩
        rw [sourceFold_frame]
        · rw [← hrmk]
          exact (List.mem_filter.1 hr).1
        · intro s2 hs2 hcontra
          have hs2mem : s2 ∈ xs := (List.mem_filter.1 hs2).1
          have hname : s2.1 = s.1 := hcontra.2
          have heq : s2 = s := List.inj_on_of_nodup_map hnodup hs2mem hs hname
          rw [heq] at hs2
          have hpred := (List.mem_filter.1 hs2).2
          exact (of_decide_eq_true hpred) hins
      · have hsfil : s ∈ xs.filter (fun s3 =>
            ¬ (st.sources.filter (fun r => r.archiveId = aid)).any
              (fun r => r.name = s3.1 ∧ r.url = s3.2)) :=
          List.mem_filter.2 ⟨hs, by rw [decide_eq_true_eq]; exact hins⟩
        have hnodup2 : ((xs.filter (fun s3 =>
            ¬ (st.sources.filter (fun r => r.archiveId = aid)).any
              (fun r => r.name = s3.1 ∧ r.url = s3.2))).map (fun s => s.1)).Nodup :=
          hnodup.sublist ((List.filter_sublist _).map _)
        exact sourceFold_inserts aid _ st.sources hnodup2 s hsfil

theorem find?_key_of_nodup {α β : Type} [DecidableEq β] (key : α → β) :
    ∀ (l : List α), ((l.map key).Nodup) → ∀ x ∈ l, ∀ v : β, key x = v →
    l.find? (fun y => key y = v) = some x := by
  intro l
  induction l with
  | nil => intro _ x hx; simp at hx
  | cons h rest ih =>
    intro hN x hx v hv
    rcases List.mem_cons.1 hx with heq | hmem
    · subst heq
      rw [List.find?_cons_of_pos _ (by simp [hv])]
    · have hhid : key h ≠ v := by
        intro hcontra
        have : key h ∈ rest.map key := by
          rw [hcontra, ← hv]
          exact List.mem_map.2 ⟨x, hmem, rfl⟩
        exact (List.nodup_cons.1 hN).1 this
      rw [List.find?_cons_of_neg _ (by simp [hhid])]
      exact ih (List.nodup_cons.1 hN).2 x hmem v hv

theorem dedupBy_subset {α β : Type} [DecidableEq β] (key : α → β) :
    ∀ (l : List α) (x : α), x ∈ dedupBy key l → x ∈ l := by
  intro l
  induction l with
  | nil => intro x hx; simp [dedupBy] at hx
  | cons h rest ih =>
    intro x hx
    rcases List.mem_cons.1 hx with heq | hmem
    · exact heq ▸ List.mem_cons_self _ _
    · exact List.mem_cons_of_mem _ (ih x (List.mem_of_mem_filter hmem))

theorem dedupBy_covers {α β : Type} [DecidableEq β] (key : α → β) :
    ∀ (l : List α) (x : α), x ∈ l → ∃ y ∈ dedupBy key l, key y = key x := by
  intro l
  induction l with
  | nil => intro x hx; simp at hx
  | cons h rest ih =>
    intro x hx
    rcases List.mem_cons.1 hx with heq | hmem
    · exact ⟨h, List.mem_cons_self _ _, by rw [heq]⟩
    · rcases ih x hmem with ⟨y, hy, hkey⟩
      by_cases hk : key y = key h
      · exact ⟨h, List.mem_cons_self _ _, by rw [← hk, hkey]⟩
      · exact ⟨y, List.mem_cons_of_mem _
          (List.mem_filter.2 ⟨hy, by simpa using hk⟩), hkey⟩

theorem dedupBy_keys_nodup {α β : Type} [DecidableEq β] (key : α → β) :
    ∀ l : List α, ((dedupBy key l).map key).Nodup := by
  intro l
  induction l with
  | nil => simp [dedupBy]
  | cons h rest ih =>
    show ((h :: (dedupBy key rest).filter (fun b => key b ≠ key h)).map key).Nodup
    rw [List.map_cons, List.nodup_cons]
    constructor
    · intro hcontra
      rcases List.mem_map.1 hcontra with ⟨y, hy, hkey⟩
      have := (List.mem_filter.1 hy).2
      rw [hkey] at this
      simp at this
    · exact ih.sublist ((List.filter_sublist _).map _)

theorem mapWithIdx_rows_spec (n0 : Int) {α : Type} (g h : α → List Char) :
    ∀ (l : List α) (i : Nat),
    (∀ r ∈ mapWithIdx (fun k t => TaxonomyRow.mk (n0 + k) (g t) (h t)) i l,
       n0 + i ≤ r.id ∧ r.id < n0 + i + l.length ∧ ∃ t ∈ l, r.slug = g t) ∧
    ((mapWithIdx (fun k t => TaxonomyRow.mk (n0 + k) (g t) (h t)) i l).map
      (fun r => r.id)).Nodup ∧
    ((mapWithIdx (fun k t => TaxonomyRow.mk (n0 + k) (g t) (h t)) i l).map
      (fun r => r.slug)) = l.map g := by
  intro l
  induction l with
  | nil => intro i; refine ⟨by simp [mapWithIdx], by simp [mapWithIdx], by simp [mapWithIdx]⟩
  | cons t l2 ih =>
    intro i
    have hstep : mapWithIdx (fun k t => TaxonomyRow.mk (n0 + k) (g t) (h t)) i (t :: l2) =
        TaxonomyRow.mk (n0 + i) (g t) (h t) ::
          mapWithIdx (fun k t => TaxonomyRow.mk (n0 + k) (g t) (h t)) (i + 1) l2 := rfl
    rcases ih (i + 1) with ⟨ihB, ihN, ihS⟩
    refine ⟨?_, ?_, ?_⟩
    · intro r hr
      rw [hstep] at hr
      rcases List.mem_cons.1 hr with heq | hmem
      · subst heq
        refine ⟨le_refl _, ?_, t, List.mem_cons_self _ _, rfl⟩
        have : (0 : Int) < 1 + l2.length := by positivity
        simp only [List.length_cons]
        push_cast
        omega
      · rcases ihB r hmem with ⟨h1, h2, tt, htt, hts⟩
        refine ⟨by push_cast at h1 ⊢; omega, ?_, tt, List.mem_cons_of_mem _ htt, hts⟩
        simp only [List.length_cons]
        push_cast at h2 ⊢
        omega
    · rw [hstep, List.map_cons, List.nodup_cons]
      refine ⟨?_, ihN⟩
      intro hcontra
      rcases List.mem_map.1 hcontra with ⟨r, hr, hid⟩
      rcases ihB r hr with ⟨h1, _, _⟩
      rw [hid] at h1
      push_cast at h1
      omega
    · rw [hstep, List.map_cons, List.map_cons, ihS]

theorem taxNewRows_spec (st : FacetState) (names : List (List Char)) :
    (∀ r ∈ taxNewRows st names,
       st.nextId ≤ r.id ∧ r.id < st.nextId + (taxToInsert st names).length ∧
       ∃ t ∈ taxToInsert st names, r.slug = t.1) ∧
    ((taxNewRows st names).map (fun r => r.id)).Nodup ∧
    ((taxNewRows st names).map (fun r => r.slug)) =
      (taxToInsert st names).map (fun t => t.1) := by
  have hspec := mapWithIdx_rows_spec st.nextId
    (fun t : List Char × List Char => t.1) (fun t => t.2) (taxToInsert st names) 0
  have heq : taxNewRows st names =
      mapWithIdx (fun k t => TaxonomyRow.mk (st.nextId + k)
        ((fun t : List Char × List Char => t.1) t)
        ((fun t : List Char × List Char => t.2) t)) 0 (taxToInsert st names) := rfl
  rw [heq]
  refine ⟨fun r hr => ?_, hspec.2.1, hspec.2.2⟩
  rcases hspec.1 r hr with ⟨h1, h2, t, ht, hs⟩
  refine ⟨by simpa using h1, by simpa using h2, t, ht, hs⟩

theorem taxToInsert_fresh (st : FacetState) (names : List (List Char)) :
    ∀ t ∈ taxToInsert st names, ∀ r ∈ st.rows, r.slug ≠ t.1 := by
  intro t ht r hr hcontra
  have htf := dedupBy_subset _ _ t ht
  have htm := List.mem_filter.1 htf
  have hall := List.all_eq_true.1 htm.2
  have hfound : r ∈ taxFound st names :=
    List.mem_filter.2 ⟨hr,
      List.any_eq_true.2 ⟨t, htm.1, by rw [decide_eq_true_eq]; exact hcontra.symm⟩⟩
  exact absurd hcontra (by simpa using hall r hfound)

theorem taxRows2_id_nodup (st : FacetState) (names : List (List Char))
    (hF : FacetWf st) : ((taxRows2 st names).map (fun r => r.id)).Nodup := by
  rcases hF with ⟨hIdN, _, _, hFresh⟩
  rcases taxNewRows_spec st names with ⟨hB, hN, _⟩
  show ((st.rows ++ taxNewRows st names).map (fun r => r.id)).Nodup
  rw [List.map_append, List.nodup_append]
  refine ⟨hIdN, hN, ?_⟩
  intro x hx hy
  rcases List.mem_map.1 hx with ⟨r1, hr1, hx1⟩
  rcases List.mem_map.1 hy with ⟨r2, hr2, hy2⟩
  have h1 := hFresh r1 hr1
  have h2 := (hB r2 hr2).1
  omega

theorem taxRows2_slug_nodup (st : FacetState) (names : List (List Char))
    (hF : FacetWf st) : ((taxRows2 st names).map (fun r => r.slug)).Nodup := by
  rcases hF with ⟨_, hSlugN, _, _⟩
  rcases taxNewRows_spec st names with ⟨hB, _, hS⟩
  show ((st.rows ++ taxNewRows st names).map (fun r => r.slug)).Nodup
  rw [List.map_append, List.nodup_append]
  refine ⟨hSlugN, ?_, ?_⟩
  · rw [hS]
    exact dedupBy_keys_nodup _ _
  · intro x hx hy
    rcases List.mem_map.1 hx with ⟨r1, hr1, hx1⟩
    rcases List.mem_map.1 hy with ⟨r2, hr2, hy2⟩
    rcases (hB r2 hr2).2.2 with ⟨t, ht, hts⟩
    exact taxToInsert_fresh st names t ht r1 hr1 (by rw [hx1, ← hy2, hts])

theorem taxDbTags_sub (st : FacetState) (names : List (List Char)) :
    ∀ r ∈ taxDbTags st names, r ∈ taxRows2 st names := by
  intro r hr
  rcases List.mem_append.1 hr with h | h
  · exact List.mem_append.2 (.inl (List.mem_of_mem_filter h))
  · exact List.mem_append.2 (.inr h)

theorem taxDbTags_covers (st : FacetState) (names : List (List Char)) :
    ∀ t ∈ taxInput names, ∃ r ∈ taxDbTags st names, r.slug = t.1 := by
  intro t ht
  by_cases hex : ∃ r ∈ st.rows, r.slug = t.1
  · rcases hex with ⟨r, hr, hs⟩
    refine ⟨r, List.mem_append.2 (.inl ?_), hs⟩
    exact List.mem_filter.2 ⟨hr,
      List.any_eq_true.2 ⟨t, ht, by rw [decide_eq_true_eq, hs]⟩⟩
  · have hfil : t ∈ (taxInput names).filter
        (fun t => (taxFound st names).all (fun r => r.slug ≠ t.1)) := by
      refine List.mem_filter.2 ⟨ht, List.all_eq_true.2 ?_⟩
      intro r hr
      rw [decide_eq_true_eq]
      intro hcontra
      exact hex ⟨r, List.mem_of_mem_filter hr, hcontra⟩
    rcases dedupBy_covers (fun t => t.1) _ t hfil with ⟨y, hy, hkey⟩
    rcases taxNewRows_spec st names with ⟨_, _, hS⟩
    have : y.1 ∈ (taxNewRows st names).map (fun r => r.slug) := by
      rw [hS]
      exact List.mem_map.2 ⟨y, hy, rfl⟩
    rcases List.mem_map.1 this with ⟨r, hr, hrs⟩
    exact ⟨r, List.mem_append.2 (.inr hr), by rw [hrs, hkey]⟩

theorem taxFind_dbTags (st : FacetState) (names : List (List Char)) :
    ∀ t ∈ taxInput names, ∃ r, (taxDbTags st names).find? (fun r2 => r2.slug = t.1) =
      some r ∧ r ∈ taxRows2 st names ∧ r.slug = t.1 := by
  intro t ht
  rcases taxDbTags_covers st names t ht with ⟨r0, hr0, hs0⟩
  rcases hfind : (taxDbTags st names).find? (fun r2 => r2.slug = t.1) with _ | r
  · exfalso
    have := List.find?_eq_none.1 hfind r0 hr0
    simp [hs0] at this
  · refine ⟨r, hfind, taxDbTags_sub st names r (List.mem_of_find?_eq_some hfind), ?_⟩
    have hps := List.find?_some hfind
    exact of_decide_eq_true hps

theorem taxRelRows_of_rel (st : FacetState) (names : List (List Char)) (a : Int)
    (hF : FacetWf st) : ∀ p ∈ st.rels, p.1 = a → ∀ r ∈ st.rows, r.id = p.2 →
    (p.2, r.slug) ∈ taxRelRows st names a ∧
    (taxRows2 st names).find? (fun r2 => r2.id = p.2) = some r := by
  intro p hp hpa r hr hid
  have hfind : (taxRows2 st names).find? (fun r2 => r2.id = p.2) = some r :=
    find?_key_of_nodup (fun r => r.id) _ (taxRows2_id_nodup st names hF) r
      (List.mem_append.2 (.inl hr)) p.2 hid
  refine ⟨List.mem_filterMap.2
    ⟨p, List.mem_filter.2 ⟨hp, by rw [decide_eq_true_eq]; exact hpa⟩, ?_⟩, hfind⟩
  rw [hfind]
  rfl

theorem taxRelRows_elim (st : FacetState) (names : List (List Char)) (a : Int)
    (hF : FacetWf st) : ∀ q ∈ taxRelRows st names a,
    ∃ p ∈ st.rels, p.1 = a ∧ p.2 = q.1 ∧ ∃ r ∈ st.rows, r.id = q.1 ∧ r.slug = q.2 := by
  intro q hq
  rcases List.mem_filterMap.1 hq with ⟨p, hp, hf⟩
  have hpm := List.mem_filter.1 hp
  have hpa : p.1 = a := of_decide_eq_true hpm.2
  rcases hfind : (taxRows2 st names).find? (fun r2 => r2.id = p.2) with _ | r0
  · rw [hfind] at hf; simp at hf
  · rw [hfind] at hf
    simp only [Option.map_some', Option.some.injEq] at hf
    have hps := List.find?_some hfind
    have hr0id : r0.id = p.2 := of_decide_eq_true hps
    rcases hF with ⟨_, _, hRef, hFresh⟩
    rcases hRef p hpm.1 with ⟨r1, hr1, hid1⟩
    have hr0mem : r0 ∈ taxRows2 st names := List.mem_of_find?_eq_some hfind
    have hr0old : r0 ∈ st.rows := by
      rcases List.mem_append.1 hr0mem with h | h
      · exact h
      · exfalso
        rcases (taxNewRows_spec st names).1 r0 h with ⟨hb, _, _⟩
        have := hFresh r1 hr1
        omega
    exact ⟨p, hpm.1, hpa, by rw [← hf], r0, hr0old, by rw [← hf]; exact hr0id,
      by rw [← hf]⟩

theorem taxRelRows_slug (st : FacetState) (names : List (List Char)) (a : Int)
    (hF : FacetWf st) : ∀ q ∈ taxRelRows st names a,
    ∀ r ∈ st.rows, r.id = q.1 → r.slug = q.2 := by
  intro q hq r hr hid
  rcases taxRelRows_elim st names a hF q hq with ⟨p, hp, hpa, hpq, r2, hr2, hid2, hs2⟩
  have heq : r = r2 :=
    List.inj_on_of_nodup_map
      ((taxRows2_id_nodup st names hF).sublist
        ((List.sublist_append_left _ _).map _))
      hr hr2 (by rw [hid, hid2])
  rw [heq, hs2]

theorem taxInput_keys (names : List (List Char)) :
    (taxInput names).map (fun t => t.1) = names.map slugify := by
  unfold taxInput
  rw [List.map_map]
  rfl

theorem taxKept_iff (st : FacetState) (names : List (List Char)) (a : Int)
    (hF : FacetWf st) : ∀ p ∈ st.rels, p.1 = a → ∀ r ∈ st.rows, r.id = p.2 →
    (p ∈ taxKept st names a ↔ r.slug ∈ names.map slugify) := by
  intro p hp hpa r hr hid
  rw [← taxInput_keys]
  constructor
  · intro hkept
    by_contra hnot
    have hdel : (p.2, r.slug) ∈ taxDelete st names a := by
      refine List.mem_filter.2
        ⟨(taxRelRows_of_rel st names a hF p hp hpa r hr hid).1, ?_⟩
      rw [decide_eq_true_eq]
      intro hany
      rcases List.any_eq_true.1 hany with ⟨t, ht, hts⟩
      exact hnot (List.mem_map.2 ⟨t, ht, of_decide_eq_true hts⟩)
    have hcond := of_decide_eq_true (List.mem_filter.1 hkept).2
    exact hcond ⟨hpa, List.any_eq_true.2 ⟨(p.2, r.slug), hdel, by simp⟩⟩
  · intro hdes
    refine List.mem_filter.2 ⟨hp, ?_⟩
    rw [decide_eq_true_eq]
    rintro ⟨-, hany⟩
    rcases List.any_eq_true.1 hany with ⟨dd, hdd, hdd1⟩
    have hdd1' : dd.1 = p.2 := of_decide_eq_true hdd1
    have hddrel : dd ∈ taxRelRows st names a := List.mem_of_mem_filter hdd
    have hslug : r.slug = dd.2 :=
      taxRelRows_slug st names a hF dd hddrel r hr (by rw [hid, hdd1'])
    have hpred := of_decide_eq_true (List.mem_filter.1 hdd).2
    apply hpred
    rcases List.mem_map.1 hdes with ⟨t, ht, hts⟩
    exact List.any_eq_true.2 ⟨t, ht, by rw [decide_eq_true_eq, hts, hslug]⟩

theorem taxInserts_mem (st : FacetState) (names : List (List Char)) (a : Int) :
    ∀ q, q ∈ (taxTagIds st names a).map (fun i => (a, i)) ↔
      ∃ t ∈ taxInsertEntries st names a,
        q = (a, (((taxDbTags st names).find? (fun r => r.slug = t.1)).map
          (fun r => r.id)).getD 0) := by
  intro q
  constructor
  · intro hq
    rcases List.mem_map.1 hq with ⟨i, hi, hqi⟩
    rcases List.mem_map.1 hi with ⟨t, ht, hti⟩
    exact ⟨t, ht, by rw [← hqi, ← hti]⟩
  · rintro ⟨t, ht, rfl⟩
    exact List.mem_map.2 ⟨_, List.mem_map.2 ⟨t, ht, rfl⟩, rfl⟩

theorem tax_frame (st : FacetState) (names : List (List Char)) (a : Int) :
    ∀ p : Int × Int, p.1 ≠ a →
    (p ∈ (upsert_taxonomy names a st).rels ↔ p ∈ st.rels) := by
  intro p hpa
  show p ∈ taxKept st names a ++ (taxTagIds st names a).map (fun i => (a, i)) ↔ _
  constructor
  · intro hp
    rcases List.mem_append.1 hp with h | h
    · exact List.mem_of_mem_filter h
    · rcases (taxInserts_mem st names a p).1 h with ⟨t, _, hq⟩
      exact absurd (by rw [hq]) hpa
  · intro hp
    refine List.mem_append.2 (.inl (List.mem_filter.2 ⟨hp, ?_⟩))
    rw [decide_eq_true_eq]
    rintro ⟨h1, -⟩
    exact hpa h1

theorem tax_kept_iff (st : FacetState) (names : List (List Char)) (a : Int)
    (hF : FacetWf st) : ∀ p ∈ st.rels, p.1 = a → ∀ r ∈ st.rows, r.id = p.2 →
    (p ∈ (upsert_taxonomy names a st).rels ↔ r.slug ∈ names.map slugify) := by
  intro p hp hpa r hr hid
  show p ∈ taxKept st names a ++ (taxTagIds st names a).map (fun i => (a, i)) ↔ _
  constructor
  · intro hmem
    rcases List.mem_append.1 hmem with h | h
    · exact (taxKept_iff st names a hF p hp hpa r hr hid).1 h
    · rcases (taxInserts_mem st names a p).1 h with ⟨t, ht, hq⟩
      have htin : t ∈ taxInput names := List.mem_of_mem_filter ht
      rcases taxFind_dbTags st names t htin with ⟨r2, hfind, hr2, hs2⟩
      have hp2 : p.2 = r2.id := by rw [hq, hfind]; rfl
      have heq : r = r2 :=
        List.inj_on_of_nodup_map (taxRows2_id_nodup st names hF)
          (List.mem_append.2 (.inl hr)) hr2 (by rw [hid, hp2])
      rw [← taxInput_keys]
      exact List.mem_map.2 ⟨t, htin, by rw [heq, hs2]⟩
  · intro hdes
    exact List.mem_append.2
      (.inl ((taxKept_iff st names a hF p hp hpa r hr hid).2 hdes))

theorem tax_new_rows (st : FacetState) (names : List (List Char)) (a : Int)
    (hF : FacetWf st) : ∀ p, p ∈ (upsert_taxonomy names a st).rels → p ∉ st.rels →
    p.1 = a ∧ ∃ r ∈ (upsert_taxonomy names a st).rows,
      r.id = p.2 ∧ r.slug ∈ names.map slugify ∧ r.slug ∉ currentSlugs st a := by
  intro p hmem hnot
  rcases List.mem_append.1 hmem with h | h
  · exact absurd (List.mem_of_mem_filter h) hnot
  · rcases (taxInserts_mem st names a p).1 h with ⟨t, ht, hq⟩
    have htin : t ∈ taxInput names := List.mem_of_mem_filter ht
    rcases taxFind_dbTags st names t htin with ⟨r2, hfind, hr2, hs2⟩
    have hp2 : p.2 = r2.id := by rw [hq, hfind]; rfl
    refine ⟨by rw [hq], r2, hr2, hp2.symm, ?_, ?_⟩
    · rw [← taxInput_keys]
      exact List.mem_map.2 ⟨t, htin, hs2.symm⟩
    · rw [hs2]
      intro hcur
      rcases List.mem_filterMap.1 hcur with ⟨p3, hp3, hf3⟩
      rcases hmap : st.rows.find? (fun r3 => r3.id = p3.2) with _ | r3
      · rw [slugOfId, hmap] at hf3; simp at hf3
      · rw [slugOfId, hmap] at hf3
        simp only [Option.map_some', Option.some.injEq] at hf3
        have hp3m := List.mem_filter.1 hp3
        have hr3mem : r3 ∈ st.rows := List.mem_of_find?_eq_some hmap
        have hps := List.find?_some hmap
        have hr3id : r3.id = p3.2 := of_decide_eq_true hps
        have hrel := (taxRelRows_of_rel st names a hF p3 hp3m.1
          (of_decide_eq_true hp3m.2) r3 hr3mem hr3id).1
        have hpred := of_decide_eq_true (List.mem_filter.1 ht).2
        exact hpred (List.any_eq_true.2 ⟨(p3.2, r3.slug), hrel,
          by rw [decide_eq_true_eq]; show r3.slug = t.1; rw [hf3]⟩)

theorem tax_all_desired (st : FacetState) (names : List (List Char)) (a : Int)
    (hF : FacetWf st) : ∀ s ∈ names.map slugify,
    ∃ p ∈ (upsert_taxonomy names a st).rels, p.1 = a ∧
      slugOfId (upsert_taxonomy names a st).rows p.2 = some s := by
  intro s hs
  have hsin : ∃ t ∈ taxInput names, t.1 = s := by
    rcases List.mem_map.1 hs with ⟨n, hn, hns⟩
    exact ⟨(slugify n, n), List.mem_map.2 ⟨n, hn, rfl⟩, hns⟩
  rcases hsin with ⟨t, htin, hts⟩
  by_cases hany : (taxRelRows st names a).any (fun pr => pr.2 = t.1) = true
  · rcases List.any_eq_true.1 hany with ⟨q, hq, hq2⟩
    have hq2' : q.2 = t.1 := of_decide_eq_true hq2
    rcases taxRelRows_elim st names a hF q hq with ⟨p, hp, hpa, hpq, r, hr, hidr, hsr⟩
    refine ⟨p, ?_, hpa, ?_⟩
    · refine (tax_kept_iff st names a hF p hp hpa r hr (by rw [hidr, hpq])).2 ?_
      rw [hsr, hq2', hts]
      exact hs
    · show slugOfId (taxRows2 st names) p.2 = some s
      rw [slugOfId, (taxRelRows_of_rel st names a hF p hp hpa r hr (by rw [hidr, hpq])).2]
      rw [Option.map_some', hsr, hq2', hts]
  · have hent : t ∈ taxInsertEntries st names a := by
      refine List.mem_filter.2 ⟨htin, ?_⟩
      rw [decide_eq_true_eq]
      intro hcontra
      exact hany hcontra
    rcases taxFind_dbTags st names t htin with ⟨r2, hfind, hr2, hs2⟩
    refine ⟨(a, (((taxDbTags st names).find? (fun r => r.slug = t.1)).map
      (fun r => r.id)).getD 0), ?_, rfl, ?_⟩
    · exact List.mem_append.2 (.inr ((taxInserts_mem st names a _).2 ⟨t, hent, rfl⟩))
    · show slugOfId (taxRows2 st names) _ = some s
      have hval : (((taxDbTags st names).find? (fun r => r.slug = t.1)).map
          (fun r => r.id)).getD 0 = r2.id := by rw [hfind]; rfl
      rw [slugOfId, hval,
        find?_key_of_nodup (fun r => r.id) _ (taxRows2_id_nodup st names hF) r2 hr2
          r2.id rfl]
      rw [Option.map_some', hs2, hts]

theorem tax_wf_preserved (st : FacetState) (names : List (List Char)) (a : Int)
    (hF : FacetWf st) : FacetWf (upsert_taxonomy names a st) := by
  refine ⟨taxRows2_id_nodup st names hF, taxRows2_slug_nodup st names hF, ?_, ?_⟩
  · intro p hp
    rcases List.mem_append.1 hp with h | h
    · rcases hF.2.2.1 p (List.mem_of_mem_filter h) with ⟨r, hr, hid⟩
      exact ⟨r, List.mem_append.2 (.inl hr), hid⟩
    · rcases (taxInserts_mem st names a p).1 h with ⟨t, ht, hq⟩
      rcases taxFind_dbTags st names t (List.mem_of_mem_filter ht) with ⟨r2, hfind, hr2, _⟩
      exact ⟨r2, hr2, by rw [hq, hfind]; rfl⟩
  · intro r hr
    show r.id < st.nextId + ((taxToInsert st names).length : Int)
    rcases List.mem_append.1 hr with h | h
    · have h1 := hF.2.2.2 r h
      have h2 : (0 : Int) ≤ (taxToInsert st names).length := Int.ofNat_nonneg _
      omega
    · rcases (taxNewRows_spec st names).1 r h with ⟨_, h2, _⟩
      exact h2

theorem tax_rels_desired (st : FacetState) (names : List (List Char)) (a : Int)
    (hF : FacetWf st) : ∀ p ∈ (upsert_taxonomy names a st).rels, p.1 = a →
    ∀ r ∈ (upsert_taxonomy names a st).rows, r.id = p.2 →
    r.slug ∈ names.map slugify := by
  intro p hp hpa r hr hid
  rcases List.mem_append.1 hp with h | h
  · have hrel : p ∈ st.rels := List.mem_of_mem_filter h
    rcases hF.2.2.1 p hrel with ⟨r0, hr0, hid0⟩
    have heq : r = r0 :=
      List.inj_on_of_nodup_map (taxRows2_id_nodup st names hF) hr
        (List.mem_append.2 (.inl hr0)) (by rw [hid, hid0])
    rw [heq]
    exact (taxKept_iff st names a hF p hrel hpa r0 hr0 hid0).1 h
  · rcases (taxInserts_mem st names a p).1 h with ⟨t, ht, hq⟩
    have htin : t ∈ taxInput names := List.mem_of_mem_filter ht
    rcases taxFind_dbTags st names t htin with ⟨r2, hfind, hr2, hs2⟩
    have hp2 : p.2 = r2.id := by rw [hq, hfind]; rfl
    have heq : r = r2 :=
      List.inj_on_of_nodup_map (taxRows2_id_nodup st names hF) hr hr2 (by rw [hid, hp2])
    rw [← taxInput_keys]
    exact List.mem_map.2 ⟨t, htin, by rw [heq, hs2]⟩

theorem tax_idem (st : FacetState) (names : List (List Char)) (a : Int)
    (hF : FacetWf st) : ∀ p,
    (p ∈ (upsert_taxonomy names a (upsert_taxonomy names a st)).rels ↔
     p ∈ (upsert_taxonomy names a st).rels) := by
  intro p
  have hF2 := tax_wf_preserved st names a hF
  by_cases hpa : p.1 = a
  · constructor
    · intro hp
      by_contra hnot
      rcases tax_new_rows (upsert_taxonomy names a st) names a hF2 p hp hnot
        with ⟨-, r, _, _, hdes, hcur⟩
      apply hcur
      rcases tax_all_desired st names a hF r.slug hdes with ⟨p3, hp3, hpa3, hslug3⟩
      exact List.mem_filterMap.2
        ⟨p3, List.mem_filter.2 ⟨hp3, by rw [decide_eq_true_eq]; exact hpa3⟩, hslug3⟩
    · intro hp
      rcases (tax_wf_preserved st names a hF).2.2.1 p hp with ⟨r, hr, hid⟩
      refine (tax_kept_iff (upsert_taxonomy names a st) names a hF2 p hp hpa r hr hid).2 ?_
      exact tax_rels_desired st names a hF p hp hpa r hr hid
  · rw [tax_frame (upsert_taxonomy names a st) names a p hpa,
      tax_frame st names a p hpa]

theorem tagNewRows_spec (st : TagsState) (tags : List (List Char × List Char)) :
    (∀ r ∈ tagNewRows st tags,
       st.nextId ≤ r.id ∧ r.id < st.nextId + (tagToInsert st tags).length ∧
       ∃ t ∈ tagToInsert st tags, r.slug = t.1) ∧
    ((tagNewRows st tags).map (fun r => r.id)).Nodup ∧
    ((tagNewRows st tags).map (fun r => r.slug)) =
      (tagToInsert st tags).map (fun t => t.1) := by
  have hspec := mapWithIdx_rows_spec st.nextId
    (fun t : List Char × List Char × List Char => t.1) (fun t => t.2.1)
    (tagToInsert st tags) 0
  have heq : tagNewRows st tags =
      mapWithIdx (fun k t => TaxonomyRow.mk (st.nextId + k)
        ((fun t : List Char × List Char × List Char => t.1) t)
        ((fun t : List Char × List Char × List Char => t.2.1) t)) 0
        (tagToInsert st tags) := rfl
  rw [heq]
  refine ⟨fun r hr => ?_, hspec.2.1, hspec.2.2⟩
  rcases hspec.1 r hr with ⟨h1, h2, t, ht, hs⟩
  refine ⟨by simpa using h1, by simpa using h2, t, ht, hs⟩

theorem tagToInsert_fresh (st : TagsState) (tags : List (List Char × List Char)) :
    ∀ t ∈ tagToInsert st tags, ∀ r ∈ st.rows, r.slug ≠ t.1 := by
  intro t ht r hr hcontra
  have htf := dedupBy_subset _ _ t ht
  have htm := List.mem_filter.1 htf
  have hall := List.all_eq_true.1 htm.2
  have hfound : r ∈ tagFound st tags :=
    List.mem_filter.2 ⟨hr,
      List.any_eq_true.2 ⟨t, htm.1, by rw [decide_eq_true_eq]; exact hcontra.symm⟩⟩
  exact absurd hcontra (by simpa using hall r hfound)

theorem tagRows2_id_nodup (st : TagsState) (tags : List (List Char × List Char))
    (hF : TagsWf st) : ((tagRows2 st tags).map (fun r => r.id)).Nodup := by
  rcases hF with ⟨hIdN, _, _, hFresh⟩
  rcases tagNewRows_spec st tags with ⟨hB, hN, _⟩
  show ((st.rows ++ tagNewRows st tags).map (fun r => r.id)).Nodup
  rw [List.map_append, List.nodup_append]
  refine ⟨hIdN, hN, ?_⟩
  intro x hx hy
  rcases List.mem_map.1 hx with ⟨r1, hr1, hx1⟩
  rcases List.mem_map.1 hy with ⟨r2, hr2, hy2⟩
  have h1 := hFresh r1 hr1
  have h2 := (hB r2 hr2).1
  omega

theorem tagRows2_slug_nodup (st : TagsState) (tags : List (List Char × List Char))
    (hF : TagsWf st) : ((tagRows2 st tags).map (fun r => r.slug)).Nodup := by
  rcases hF with ⟨_, hSlugN, _, _⟩
  rcases tagNewRows_spec st tags with ⟨hB, _, hS⟩
  show ((st.rows ++ tagNewRows st tags).map (fun r => r.slug)).Nodup
  rw [List.map_append, List.nodup_append]
  refine ⟨hSlugN, ?_, ?_⟩
  · rw [hS]
    exact dedupBy_keys_nodup _ _
  · intro x hx hy
    rcases List.mem_map.1 hx with ⟨r1, hr1, hx1⟩
    rcases List.mem_map.1 hy with ⟨r2, hr2, hy2⟩
    rcases (hB r2 hr2).2.2 with ⟨t, ht, hts⟩
    exact tagToInsert_fresh st tags t ht r1 hr1 (by rw [hx1, ← hy2, hts])

theorem tagDbTags_sub (st : TagsState) (tags : List (List Char × List Char)) :
    ∀ r ∈ tagDbTags st tags, r ∈ tagRows2 st tags := by
  intro r hr
  rcases List.mem_append.1 hr with h | h
  · exact List.mem_append.2 (.inl (List.mem_of_mem_filter h))
  · exact List.mem_append.2 (.inr h)

theorem tagDbTags_covers (st : TagsState) (tags : List (List Char × List Char)) :
    ∀ t ∈ tagInput tags, ∃ r ∈ tagDbTags st tags, r.slug = t.1 := by
  intro t ht
  by_cases hex : ∃ r ∈ st.rows, r.slug = t.1
  · rcases hex with ⟨r, hr, hs⟩
    refine ⟨r, List.mem_append.2 (.inl ?_), hs⟩
    exact List.mem_filter.2 ⟨hr,
      List.any_eq_true.2 ⟨t, ht, by rw [decide_eq_true_eq, hs]⟩⟩
  · have hfil : t ∈ (tagInput tags).filter
        (fun t => (tagFound st tags).all (fun r => r.slug ≠ t.1)) := by
      refine List.mem_filter.2 ⟨ht, List.all_eq_true.2 ?_⟩
      intro r hr
      rw [decide_eq_true_eq]
      intro hcontra
      exact hex ⟨r, List.mem_of_mem_filter hr, hcontra⟩
    rcases dedupBy_covers (fun t => t.1) _ t hfil with ⟨y, hy, hkey⟩
    rcases tagNewRows_spec st tags with ⟨_, _, hS⟩
    have : y.1 ∈ (tagNewRows st tags).map (fun r => r.slug) := by
      rw [hS]
      exact List.mem_map.2 ⟨y, hy, rfl⟩
    rcases List.mem_map.1 this with ⟨r, hr, hrs⟩
    exact ⟨r, List.mem_append.2 (.inr hr), by rw [hrs, hkey]⟩

theorem tagFind_dbTags (st : TagsState) (tags : List (List Char × List Char)) :
    ∀ t ∈ tagInput tags, ∃ r, (tagDbTags st tags).find? (fun r2 => r2.slug = t.1) =
      some r ∧ r ∈ tagRows2 st tags ∧ r.slug = t.1 := by
  intro t ht
  rcases tagDbTags_covers st tags t ht with ⟨r0, hr0, hs0⟩
  rcases hfind : (tagDbTags st tags).find? (fun r2 => r2.slug = t.1) with _ | r
  · exfalso
    have := List.find?_eq_none.1 hfind r0 hr0
    simp [hs0] at this
  · refine ⟨r, hfind, tagDbTags_sub st tags r (List.mem_of_find?_eq_some hfind), ?_⟩
    have hps := List.find?_some hfind
    exact of_decide_eq_true hps

theorem tagRelRows_of_rel (st : TagsState) (tags : List (List Char × List Char))
    (a : Int) (hF : TagsWf st) : ∀ p ∈ st.rels, p.archiveId = a →
    ∀ r ∈ st.rows, r.id = p.tagId →
    (p.tagId, r.slug, p.ns) ∈ tagRelRows st tags a ∧
    (tagRows2 st tags).find? (fun r2 => r2.id = p.tagId) = some r := by
  intro p hp hpa r hr hid
  have hfind : (tagRows2 st tags).find? (fun r2 => r2.id = p.tagId) = some r :=
    find?_key_of_nodup (fun r => r.id) _ (tagRows2_id_nodup st tags hF) r
      (List.mem_append.2 (.inl hr)) p.tagId hid
  refine ⟨List.mem_filterMap.2
    ⟨p, List.mem_filter.2 ⟨hp, by rw [decide_eq_true_eq]; exact hpa⟩, ?_⟩, hfind⟩
  rw [hfind]
  rfl

theorem tagRelRows_elim (st : TagsState) (tags : List (List Char × List Char))
    (a : Int) (hF : TagsWf st) : ∀ q ∈ tagRelRows st tags a,
    ∃ p ∈ st.rels, p.archiveId = a ∧ p.tagId = q.1 ∧ p.ns = q.2.2 ∧
      ∃ r ∈ st.rows, r.id = q.1 ∧ r.slug = q.2.1 := by
  intro q hq
  rcases List.mem_filterMap.1 hq with ⟨p, hp, hf⟩
  have hpm := List.mem_filter.1 hp
  have hpa : p.archiveId = a := of_decide_eq_true hpm.2
  rcases hfind : (tagRows2 st tags).find? (fun r2 => r2.id = p.tagId) with _ | r0
  · rw [hfind] at hf; simp at hf
  · rw [hfind] at hf
    simp only [Option.map_some', Option.some.injEq] at hf
    have hps := List.find?_some hfind
    have hr0id : r0.id = p.tagId := of_decide_eq_true hps
    rcases hF with ⟨_, _, hRef, hFresh⟩
    rcases hRef p hpm.1 with ⟨r1, hr1, hid1⟩
    have hr0mem : r0 ∈ tagRows2 st tags := List.mem_of_find?_eq_some hfind
    have hr0old : r0 ∈ st.rows := by
      rcases List.mem_append.1 hr0mem with h | h
      · exact h
      · exfalso
        rcases (tagNewRows_spec st tags).1 r0 h with ⟨hb, _, _⟩
        have := hFresh r1 hr1
        omega
    exact ⟨p, hpm.1, hpa, by rw [← hf], by rw [← hf], r0, hr0old,
      by rw [← hf]; exact hr0id, by rw [← hf]⟩

theorem tagRelRows_slug (st : TagsState) (tags : List (List Char × List Char))
    (a : Int) (hF : TagsWf st) : ∀ q ∈ tagRelRows st tags a,
    ∀ r ∈ st.rows, r.id = q.1 → r.slug = q.2.1 := by
  intro q hq r hr hid
  rcases tagRelRows_elim st tags a hF q hq with ⟨p, hp, hpa, hpq, hpns, r2, hr2, hid2, hs2⟩
  have heq : r = r2 :=
    List.inj_on_of_nodup_map
      ((tagRows2_id_nodup st tags hF).sublist
        ((List.sublist_append_left _ _).map _))
      hr hr2 (by rw [hid, hid2])
  rw [heq, hs2]

theorem tagInput_keys (tags : List (List Char × List Char)) :
    (tagInput tags).map (fun t => (t.1, t.2.2)) =
      tags.map (fun t => (slugify t.1, t.2)) := by
  unfold tagInput
  rw [List.map_map]
  rfl

theorem tagKept_iff_base (st : TagsState) (tags : List (List Char × List Char))
    (a : Int) (hF : TagsWf st) : ∀ p ∈ st.rels, p.archiveId = a →
    ∀ r ∈ st.rows, r.id = p.tagId →
    (p ∈ tagKept st tags a ↔
     (r.slug, p.ns) ∈ tags.map (fun t => (slugify t.1, t.2))) := by
  intro p hp hpa r hr hid
  rw [← tagInput_keys]
  constructor
  · intro hkept
    by_contra hnot
    have hdel : (p.tagId, r.slug, p.ns) ∈ tagDelete st tags a := by
      refine List.mem_filter.2
        ⟨(tagRelRows_of_rel st tags a hF p hp hpa r hr hid).1, ?_⟩
      rw [decide_eq_true_eq]
      intro hany
      rcases List.any_eq_true.1 hany with ⟨t, ht, hts⟩
      have hts2 := of_decide_eq_true hts
      exact hnot (List.mem_map.2 ⟨t, ht, by
        show (t.1, t.2.2) = (r.slug, p.ns)
        rw [hts2.1, hts2.2]⟩)
    have hcond := of_decide_eq_true (List.mem_filter.1 hkept).2
    exact hcond ⟨hpa, List.any_eq_true.2 ⟨(p.tagId, r.slug, p.ns), hdel, by simp⟩⟩
  · intro hdes
    refine List.mem_filter.2 ⟨hp, ?_⟩
    rw [decide_eq_true_eq]
    rintro ⟨-, hany⟩
    rcases List.any_eq_true.1 hany with ⟨dd, hdd, hdd1⟩
    have hdd1' : dd.1 = p.tagId ∧ dd.2.2 = p.ns := of_decide_eq_true hdd1
    have hddrel : dd ∈ tagRelRows st tags a := List.mem_of_mem_filter hdd
    have hslug : r.slug = dd.2.1 :=
      tagRelRows_slug st tags a hF dd hddrel r hr (by rw [hid, hdd1'.1])
    have hpred := of_decide_eq_true (List.mem_filter.1 hdd).2
    apply hpred
    rcases List.mem_map.1 hdes with ⟨t, ht, hts⟩
    have hts1 : t.1 = r.slug := congrArg Prod.fst hts
    have hts2 : t.2.2 = p.ns := congrArg Prod.snd hts
    exact List.any_eq_true.2 ⟨t, ht, by
      rw [decide_eq_true_eq]
      exact ⟨by rw [hts1, hslug], by rw [hts2, hdd1'.2]⟩⟩

theorem tagInserts_mem (st : TagsState) (tags : List (List Char × List Char)) (a : Int) :
    ∀ q, q ∈ tagInserted st tags a ↔
      ∃ t ∈ tagInsertEntries st tags a,
        q = TagRel.mk a ((((tagDbTags st tags).find? (fun r => r.slug = t.1)).map
          (fun r => r.id)).getD 0) t.2.2 := by
  intro q
  constructor
  · intro hq
    rcases List.mem_map.1 hq with ⟨t, ht, hqt⟩
    exact ⟨t, ht, hqt.symm⟩
  · rintro ⟨t, ht, rfl⟩
    exact List.mem_map.2 ⟨t, ht, rfl⟩

theorem tag_frame (st : TagsState) (tags : List (List Char × List Char)) (a : Int) :
    ∀ p : TagRel, p.archiveId ≠ a →
    (p ∈ (upsert_tags tags a st).rels ↔ p ∈ st.rels) := by
  intro p hpa
  show p ∈ tagKept st tags a ++ tagInserted st tags a ↔ _
  constructor
  · intro hp
    rcases List.mem_append.1 hp with h | h
    · exact List.mem_of_mem_filter h
    · rcases (tagInserts_mem st tags a p).1 h with ⟨t, _, hq⟩
      exact absurd (by rw [hq]) hpa
  · intro hp
    refine List.mem_append.2 (.inl (List.mem_filter.2 ⟨hp, ?_⟩))
    rw [decide_eq_true_eq]
    rintro ⟨h1, -⟩
    exact hpa h1

theorem tag_kept_iff (st : TagsState) (tags : List (List Char × List Char)) (a : Int)
    (hF : TagsWf st) : ∀ p ∈ st.rels, p.archiveId = a →
    ∀ r ∈ st.rows, r.id = p.tagId →
    (p ∈ (upsert_tags tags a st).rels ↔
     (r.slug, p.ns) ∈ tags.map (fun t => (slugify t.1, t.2))) := by
  intro p hp hpa r hr hid
  show p ∈ tagKept st tags a ++ tagInserted st tags a ↔ _
  constructor
  · intro hmem
    rcases List.mem_append.1 hmem with h | h
    · exact (tagKept_iff_base st tags a hF p hp hpa r hr hid).1 h
    · rcases (tagInserts_mem st tags a p).1 h with ⟨t, ht, hq⟩
      have htin : t ∈ tagInput tags := List.mem_of_mem_filter ht
      rcases tagFind_dbTags st tags t htin with ⟨r2, hfind, hr2, hs2⟩
      have hp2 : p.tagId = r2.id := by rw [hq, hfind]; rfl
      have heq : r = r2 :=
        List.inj_on_of_nodup_map (tagRows2_id_nodup st tags hF)
          (List.mem_append.2 (.inl hr)) hr2 (by rw [hid, hp2])
      rw [← tagInput_keys]
      refine List.mem_map.2 ⟨t, htin, ?_⟩
      show (t.1, t.2.2) = (r.slug, p.ns)
      rw [heq, hs2, hq]
  · intro hdes
    exact List.mem_append.2
      (.inl ((tagKept_iff_base st tags a hF p hp hpa r hr hid).2 hdes))

theorem tag_new_rows (st : TagsState) (tags : List (List Char × List Char)) (a : Int)
    (hF : TagsWf st) : ∀ p, p ∈ (upsert_tags tags a st).rels → p ∉ st.rels →
    p.archiveId = a ∧ ∃ r ∈ (upsert_tags tags a st).rows,
      r.id = p.tagId ∧ (r.slug, p.ns) ∈ tags.map (fun t => (slugify t.1, t.2)) ∧
      (r.slug, p.ns) ∉ currentTagKeys st a := by
  intro p hmem hnot
  rcases List.mem_append.1 hmem with h | h
  · exact absurd (List.mem_of_mem_filter h) hnot
  · rcases (tagInserts_mem st tags a p).1 h with ⟨t, ht, hq⟩
    have htin : t ∈ tagInput tags := List.mem_of_mem_filter ht
    rcases tagFind_dbTags st tags t htin with ⟨r2, hfind, hr2, hs2⟩
    have hp2 : p.tagId = r2.id := by rw [hq, hfind]; rfl
    have hpns : p.ns = t.2.2 := by rw [hq]
    refine ⟨by rw [hq], r2, hr2, hp2.symm, ?_, ?_⟩
    · rw [← tagInput_keys]
      refine List.mem_map.2 ⟨t, htin, ?_⟩
      show (t.1, t.2.2) = (r2.slug, p.ns)
      rw [hs2, hpns]
    · rw [hs2, hpns]
      intro hcur
      rcases List.mem_filterMap.1 hcur with ⟨p3, hp3, hf3⟩
      rcases hmap : st.rows.find? (fun r3 => r3.id = p3.tagId) with _ | r3
      · rw [slugOfId, hmap] at hf3; simp at hf3
      · rw [slugOfId, hmap] at hf3
        simp only [Option.map_some', Option.some.injEq] at hf3
        have hp3m := List.mem_filter.1 hp3
        have hr3mem : r3 ∈ st.rows := List.mem_of_find?_eq_some hmap
        have hps := List.find?_some hmap
        have hr3id : r3.id = p3.tagId := of_decide_eq_true hps
        have hrel := (tagRelRows_of_rel st tags a hF p3 hp3m.1
          (of_decide_eq_true hp3m.2) r3 hr3mem hr3id).1
        have hpred := of_decide_eq_true (List.mem_filter.1 ht).2
        have hf31 : r3.slug = t.1 := congrArg Prod.fst hf3
        have hf32 : p3.ns = t.2.2 := congrArg Prod.snd hf3
        exact hpred (List.any_eq_true.2 ⟨(p3.tagId, r3.slug, p3.ns), hrel,
          by rw [decide_eq_true_eq]; exact ⟨hf31, hf32⟩⟩)

theorem tag_all_desired (st : TagsState) (tags : List (List Char × List Char)) (a : Int)
    (hF : TagsWf st) : ∀ k ∈ tags.map (fun t => (slugify t.1, t.2)),
    ∃ p ∈ (upsert_tags tags a st).rels, p.archiveId = a ∧ p.ns = k.2 ∧
      slugOfId (upsert_tags tags a st).rows p.tagId = some k.1 := by
  intro k hk
  have hkin : ∃ t ∈ tagInput tags, t.1 = k.1 ∧ t.2.2 = k.2 := by
    rw [← tagInput_keys] at hk
    rcases List.mem_map.1 hk with ⟨t, ht, hts⟩
    exact ⟨t, ht, congrArg Prod.fst hts, by rw [← hts]⟩
  rcases hkin with ⟨t, htin, hts1, hts2⟩
  by_cases hany : (tagRelRows st tags a).any
      (fun pr => pr.2.1 = t.1 ∧ pr.2.2 = t.2.2) = true
  · rcases List.any_eq_true.1 hany with ⟨q, hq, hq2⟩
    have hq2' := of_decide_eq_true hq2
    rcases tagRelRows_elim st tags a hF q hq
      with ⟨p, hp, hpa, hpq, hpns, r, hr, hidr, hsr⟩
    refine ⟨p, ?_, hpa, by rw [hpns, hq2'.2, hts2], ?_⟩
    · refine (tag_kept_iff st tags a hF p hp hpa r hr (by rw [hidr, hpq])).2 ?_
      have : (r.slug, p.ns) = k := by
        have h1 : r.slug = k.1 := by rw [hsr, hq2'.1, hts1]
        have h2 : p.ns = k.2 := by rw [hpns, hq2'.2, hts2]
        rw [h1, h2]
      rw [this]
      exact hk
    · show slugOfId (tagRows2 st tags) p.tagId = some k.1
      rw [slugOfId,
        (tagRelRows_of_rel st tags a hF p hp hpa r hr (by rw [hidr, hpq])).2]
      rw [Option.map_some', hsr, hq2'.1, hts1]
  · have hent : t ∈ tagInsertEntries st tags a := by
      refine List.mem_filter.2 ⟨htin, ?_⟩
      rw [decide_eq_true_eq]
      intro hcontra
      exact hany hcontra
    rcases tagFind_dbTags st tags t htin with ⟨r2, hfind, hr2, hs2⟩
    refine ⟨TagRel.mk a ((((tagDbTags st tags).find? (fun r => r.slug = t.1)).map
      (fun r => r.id)).getD 0) t.2.2, ?_, rfl, by show t.2.2 = k.2; exact hts2, ?_⟩
    · exact List.mem_append.2 (.inr ((tagInserts_mem st tags a _).2 ⟨t, hent, rfl⟩))
    · show slugOfId (tagRows2 st tags) _ = some k.1
      have hval : (((tagDbTags st tags).find? (fun r => r.slug = t.1)).map
          (fun r => r.id)).getD 0 = r2.id := by rw [hfind]; rfl
      rw [slugOfId, hval,
        find?_key_of_nodup (fun r => r.id) _ (tagRows2_id_nodup st tags hF) r2 hr2
          r2.id rfl]
      rw [Option.map_some', hs2, hts1]

theorem tag_wf_preserved (st : TagsState) (tags : List (List Char × List Char))
    (a : Int) (hF : TagsWf st) : TagsWf (upsert_tags tags a st) := by
  refine ⟨tagRows2_id_nodup st tags hF, tagRows2_slug_nodup st tags hF, ?_, ?_⟩
  · intro p hp
    rcases List.mem_append.1 hp with h | h
    · rcases hF.2.2.1 p (List.mem_of_mem_filter h) with ⟨r, hr, hid⟩
      exact ⟨r, List.mem_append.2 (.inl hr), hid⟩
    · rcases (tagInserts_mem st tags a p).1 h with ⟨t, ht, hq⟩
      rcases tagFind_dbTags st tags t (List.mem_of_mem_filter ht) with ⟨r2, hfind, hr2, _⟩
      exact ⟨r2, hr2, by rw [hq, hfind]; rfl⟩
  · intro r hr
    show r.id < st.nextId + ((tagToInsert st tags).length : Int)
    rcases List.mem_append.1 hr with h | h
    · have h1 := hF.2.2.2 r h
      have h2 : (0 : Int) ≤ (tagToInsert st tags).length := Int.ofNat_nonneg _
      omega
    · rcases (tagNewRows_spec st tags).1 r h with ⟨_, h2, _⟩
      exact h2

theorem tag_rels_desired (st : TagsState) (tags : List (List Char × List Char))
    (a : Int) (hF : TagsWf st) : ∀ p ∈ (upsert_tags tags a st).rels, p.archiveId = a →
    ∀ r ∈ (upsert_tags tags a st).rows, r.id = p.tagId →
    (r.slug, p.ns) ∈ tags.map (fun t => (slugify t.1, t.2)) := by
  intro p hp hpa r hr hid
  rcases List.mem_append.1 hp with h | h
  · have hrel : p ∈ st.rels := List.mem_of_mem_filter h
    rcases hF.2.2.1 p hrel with ⟨r0, hr0, hid0⟩
    have heq : r = r0 :=
      List.inj_on_of_nodup_map (tagRows2_id_nodup st tags hF) hr
        (List.mem_append.2 (.inl hr0)) (by rw [hid, hid0])
    rw [heq]
    exact (tagKept_iff_base st tags a hF p hrel hpa r0 hr0 hid0).1 h
  · rcases (tagInserts_mem st tags a p).1 h with ⟨t, ht, hq⟩
    have htin : t ∈ tagInput tags := List.mem_of_mem_filter ht
    rcases tagFind_dbTags st tags t htin with ⟨r2, hfind, hr2, hs2⟩
    have hp2 : p.tagId = r2.id := by rw [hq, hfind]; rfl
    have heq : r = r2 :=
      List.inj_on_of_nodup_map (tagRows2_id_nodup st tags hF) hr hr2 (by rw [hid, hp2])
    rw [← tagInput_keys]
    refine List.mem_map.2 ⟨t, htin, ?_⟩
    show (t.1, t.2.2) = (r.slug, p.ns)
    rw [heq, hs2, hq]

theorem tag_idem (st : TagsState) (tags : List (List Char × List Char)) (a : Int)
    (hF : TagsWf st) : ∀ p,
    (p ∈ (upsert_tags tags a (upsert_tags tags a st)).rels ↔
     p ∈ (upsert_tags tags a st).rels) := by
  intro p
  have hF2 := tag_wf_preserved st tags a hF
  by_cases hpa : p.archiveId = a
  · constructor
    · intro hp
      by_contra hnot
      rcases tag_new_rows (upsert_tags tags a st) tags a hF2 p hp hnot
        with ⟨-, r, _, _, hdes, hcur⟩
      apply hcur
      rcases tag_all_desired st tags a hF (r.slug, p.ns) hdes
        with ⟨p3, hp3, hpa3, hns3, hslug3⟩
      refine List.mem_filterMap.2
        ⟨p3, List.mem_filter.2 ⟨hp3, by rw [decide_eq_true_eq]; exact hpa3⟩, ?_⟩
      rw [hslug3, hns3]
      rfl
    · intro hp
      rcases (tag_wf_preserved st tags a hF).2.2.1 p hp with ⟨r, hr, hid⟩
      refine (tag_kept_iff (upsert_tags tags a st) tags a hF2 p hp hpa r hr hid).2 ?_
      exact tag_rels_desired st tags a hF p hp hpa r hr hid
  · rw [tag_frame (upsert_tags tags a st) tags a p hpa, tag_frame st tags a p hpa]

set_option maxRecDepth 10000 in
/-- Claim C3: on a well-formed store, the relation synchronizers perform an
exact diff. For facets (`upsert_taxonomy`): an existing relation row of the
archive survives iff its term's slug is among the slugified input names; a
relation row that is new points at a registry row whose slug is a desired
slug that was absent from the archive's current slugs; every desired slug
ends up related; relation rows of other archives are untouched; and running
the same input twice leaves the relation set of the second run equal to that
of the first. The same five properties hold for namespaced tags
(`upsert_tags`) with `(slug, namespace)` keys. Concretely, the transition
`{a, b} → {b, c}` deletes `a`'s relation row, keeps `b`'s, and inserts one
for `c`, in both components. -/
theorem sync_diff_exact (fs : FacetState) (ts : TagsState)
    (names : List (List Char)) (tags : List (List Char × List Char)) (a : Int)
    (hF : FacetWf fs) (hT : TagsWf ts) :
    (∀ p ∈ fs.rels, p.1 = a → ∀ r ∈ fs.rows, r.id = p.2 →
      (p ∈ (upsert_taxonomy names a fs).rels ↔ r.slug ∈ names.map slugify)) ∧
    (∀ p, p ∈ (upsert_taxonomy names a fs).rels → p ∉ fs.rels →
      p.1 = a ∧ ∃ r ∈ (upsert_taxonomy names a fs).rows,
        r.id = p.2 ∧ r.slug ∈ names.map slugify ∧ r.slug ∉ currentSlugs fs a) ∧
    (∀ s ∈ names.map slugify, ∃ p ∈ (upsert_taxonomy names a fs).rels, p.1 = a ∧
      slugOfId (upsert_taxonomy names a fs).rows p.2 = some s) ∧
    (∀ p : Int × Int, p.1 ≠ a →
      (p ∈ (upsert_taxonomy names a fs).rels ↔ p ∈ fs.rels)) ∧
    (∀ p, p ∈ (upsert_taxonomy names a (upsert_taxonomy names a fs)).rels ↔
      p ∈ (upsert_taxonomy names a fs).rels) ∧
    ((upsert_taxonomy ["B".data, "C".data] 1 facetAB).rels = [(1, 11), (1, 12)]) ∧
    (∀ p ∈ ts.rels, p.archiveId = a → ∀ r ∈ ts.rows, r.id = p.tagId →
      (p ∈ (upsert_tags tags a ts).rels ↔
       (r.slug, p.ns) ∈ tags.map (fun t => (slugify t.1, t.2)))) ∧
    (∀ p, p ∈ (upsert_tags tags a ts).rels → p ∉ ts.rels →
      p.archiveId = a ∧ ∃ r ∈ (upsert_tags tags a ts).rows,
        r.id = p.tagId ∧ (r.slug, p.ns) ∈ tags.map (fun t => (slugify t.1, t.2)) ∧
        (r.slug, p.ns) ∉ currentTagKeys ts a) ∧
    (∀ k ∈ tags.map (fun t => (slugify t.1, t.2)),
      ∃ p ∈ (upsert_tags tags a ts).rels, p.archiveId = a ∧ p.ns = k.2 ∧
        slugOfId (upsert_tags tags a ts).rows p.tagId = some k.1) ∧
    (∀ p : TagRel, p.archiveId ≠ a →
      (p ∈ (upsert_tags tags a ts).rels ↔ p ∈ ts.rels)) ∧
    (∀ p, p ∈ (upsert_tags tags a (upsert_tags tags a ts)).rels ↔
      p ∈ (upsert_tags tags a ts).rels) ∧
    ((upsert_tags [("C".data, "male".data), ("B".data, "male".data)] 1 tagsAB).rels =
      [TagRel.mk 1 11 "male".data, TagRel.mk 1 12 "male".data]) :=
  ⟨tax_kept_iff fs names a hF, tax_new_rows fs names a hF,
   tax_all_desired fs names a hF, tax_frame fs names a,
   tax_idem fs names a hF, by decide,
   tag_kept_iff ts tags a hT, tag_new_rows ts tags a hT,
   tag_all_desired ts tags a hT, tag_frame ts tags a,
   tag_idem ts tags a hT, by decide⟩

set_option maxRecDepth 10000 in
/-- Witness for `sync_diff_exact`: the well-formedness hypotheses hold of
the concrete two-term stores, and the `{a, b} → {b, c}` transition comes out
as claimed in both components. -/
theorem sync_diff_exact_witness :
    FacetWf facetAB ∧ TagsWf tagsAB ∧
    (upsert_taxonomy ["B".data, "C".data] 1 facetAB).rels = [(1, 11), (1, 12)] ∧
    (upsert_tags [("C".data, "male".data), ("B".data, "male".data)] 1 tagsAB).rels =
      [TagRel.mk 1 11 "male".data, TagRel.mk 1 12 "male".data] := by
  have h := sync_diff_exact facetAB tagsAB ["B".data, "C".data]
    [("C".data, "male".data), ("B".data, "male".data)] 1
    ⟨by decide, by decide, by decide, by decide⟩
    ⟨by decide, by decide, by decide, by decide⟩
  exact ⟨⟨by decide, by decide, by decide, by decide⟩,
    ⟨by decide, by decide, by decide, by decide⟩,
    h.2.2.2.2.2.1, h.2.2.2.2.2.2.2.2.2.2.2⟩

set_option maxRecDepth 10000 in
/-- Counterexample to claim C4 as stated: re-ingesting archive 1 of
`oneArchiveDb` under the changed hash `h2` (with its artist in the
input) returns the new id 2, but the artist relation row `(1, 10)` of
the old id is still present afterwards — the relation rows are not
moved off the old id. -/
theorem upsert_archive_versioning_not_moved :
    (upsertArchiveRun dVerC4 oneArchiveDb).2 = .ok 2 ∧
    (upsertArchiveRun dVerC4 oneArchiveDb).1.artists.rels = [(1, 10), (2, 10)] :=
  ⟨by decide, by decide⟩

/-- Claim C4 (amended): when a live archive matches and the input hash
is present but differs, `upsert_archive` returns the fresh id
`st.nextArchiveId`, inserts a row copying the matched row's metadata
under the new hash (not deleted), rewrites the old row with
`deleted_at = now` while every previously stored archive id keeps a
row (no hard delete), and synchronizes the *input* relation lists onto
the new id: relation rows of other ids — including the old id's — stay
in place, and every input artist name ends up related to the new id. -/
theorem upsert_archive_versioning (d : UpsertArchiveData) (st : DbState)
    (rec : ArchiveRow) (h : List Char)
    (hfind : st.archives.find? (archiveMatch d) = some rec)
    (hhash : d.hash = some h) (hne : h ≠ rec.hash)
    (hfindh : st.archives.find? (fun r => r.hash = rec.hash) = some rec)
    (hfresh : ∀ r ∈ st.archives, r.id < st.nextArchiveId)
    (hWfA : FacetWf st.artists) :
    ∃ st4, upsert_archive d st = .ok (st4, st.nextArchiveId) ∧
      ArchiveRow.mk st.nextArchiveId rec.slug rec.title rec.description rec.path h
        rec.pages rec.size rec.thumbnail rec.language rec.released_at
        rec.has_metadata none none ∈ st4.archives ∧
      { rec with deleted_at := some st.now } ∈ st4.archives ∧
      (∀ r ∈ st.archives, ∃ r2 ∈ st4.archives, r2.id = r.id) ∧
      (∀ p ∈ st.artists.rels, p.1 ≠ st.nextArchiveId → p ∈ st4.artists.rels) ∧
      (∀ p ∈ st.tags.rels, p.archiveId ≠ st.nextArchiveId → p ∈ st4.tags.rels) ∧
      (∀ xs, d.artists = some xs → ∀ s ∈ xs.map slugify,
        ∃ p ∈ st4.artists.rels, p.1 = st.nextArchiveId ∧
          slugOfId st4.artists.rows p.2 = some s) := by
  have hsome : d.hash.isSome = true := by rw [hhash]; rfl
  have hne2 : d.hash ≠ some rec.hash := by
    rw [hhash]
    intro hc
    exact hne (Option.some.inj hc)
  have hgd : d.hash.getD [] = h := by rw [hhash]; rfl
  have hrid : rec.id < st.nextArchiveId := hfresh rec (List.mem_of_find?_eq_some hfind)
  rw [upsert_archive, hfind]
  simp only [if_pos (show d.hash.isSome = true ∧ d.hash ≠ some rec.hash from
    ⟨hsome, hne2⟩)]
  simp only [copy_archive, hfindh, hgd]
  refine ⟨_, rfl, ?_, ?_, ?_, ?_, ?_, ?_⟩
  · refine List.mem_map.2 ⟨_, List.mem_append.2 (.inr (List.mem_singleton.2 rfl)), ?_⟩
    rw [if_neg (show ¬ (st.nextArchiveId = rec.id) by omega)]
  · refine List.mem_map.2 ⟨rec, List.mem_append.2
      (.inl (List.mem_of_find?_eq_some hfind)), ?_⟩
    rw [if_pos rfl]
  · intro r hr
    by_cases hid : r.id = rec.id
    · exact ⟨{ r with deleted_at := some st.now },
        List.mem_map.2 ⟨r, List.mem_append.2 (.inl hr), by rw [if_pos hid]⟩, rfl⟩
    · exact ⟨r, List.mem_map.2 ⟨r, List.mem_append.2 (.inl hr), by rw [if_neg hid]⟩,
        rfl⟩
  · intro p hp hpne
    show p ∈ (syncOpt d.artists
      (fun xs => upsert_taxonomy xs st.nextArchiveId) st.artists).rels
    rcases d.artists with _ | xs
    · exact hp
    · exact (tax_frame st.artists xs st.nextArchiveId p hpne).2 hp
  · intro p hp hpne
    show p ∈ (syncOpt d.tags
      (fun xs => upsert_tags xs st.nextArchiveId) st.tags).rels
    rcases d.tags with _ | xs
    · exact hp
    · exact (tag_frame st.tags xs st.nextArchiveId p hpne).2 hp
  · intro xs hda s hs
    show ∃ p ∈ (syncOpt d.artists
        (fun xs => upsert_taxonomy xs st.nextArchiveId) st.artists).rels,
      p.1 = st.nextArchiveId ∧
      slugOfId (syncOpt d.artists
        (fun xs => upsert_taxonomy xs st.nextArchiveId) st.artists).rows p.2 = some s
    rw [hda]
    exact tax_all_desired st.artists xs st.nextArchiveId hWfA s hs

set_option maxRecDepth 10000 in
/-- Witness for `upsert_archive_versioning`: the concrete re-ingest of
archive 1 under hash `h2` returns id 2, stores the copied row under
`h2`, soft-deletes the old row, and keeps the old artist relation. -/
theorem upsert_archive_versioning_witness :
    ∃ st4, upsert_archive dVerC4 oneArchiveDb = .ok (st4, 2) ∧
      ArchiveRow.mk 2 "s".data "T".data none "/p".data "h2".data 10 100 1 none
        none true none none ∈ st4.archives ∧
      { recC4 with deleted_at := some 99 } ∈ st4.archives ∧
      (1, 10) ∈ st4.artists.rels := by
  rcases upsert_archive_versioning dVerC4 oneArchiveDb recC4 "h2".data
      (by decide) (by decide) (by decide) (by decide) (by decide)
      ⟨by decide, by decide, by decide, by decide⟩ with
    ⟨st4, h1, h2, h3, _, h5, _, _⟩
  exact ⟨st4, h1, h2, h3, h5 (1, 10) (by decide) (by decide)⟩

/-- Witness for `upsert_relations_sources_merge`: merging one source
with a fresh url into the concrete store stores it under the archive
with that url. -/
theorem upsert_relations_sources_merge_witness :
    (([("web".data, some "u2".data)].map
        (fun s : List Char × Option (List Char) => s.1)).Nodup) ∧
    SourceRow.mk 1 "web".data (some "u2".data) ∈
      (upsert_relations
        ⟨none, none, none, none, none, none, none,
         some [("web".data, some "u2".data)], none⟩ 1 oneArchiveDb).sources :=
  ⟨by decide,
   (upsert_relations_sources_merge
      ⟨none, none, none, none, none, none, none,
       some [("web".data, some "u2".data)], none⟩ 1 oneArchiveDb).2.2.2
     [("web".data, some "u2".data)] rfl (by decide)
     ("web".data, some "u2".data) (by decide)⟩

/-- Witness for `upsert_archive_update_fields`: an update of archive 1
of the concrete store carrying only `pages` rewrites `pages`, nulls
`description` and `language`, and preserves the rest. -/
theorem upsert_archive_update_fields_witness :
    oneArchiveDb.archives.find?
        (archiveMatch { emptyUpsertData with id := some 1, pages := some 42 }) =
      some (oneArchiveDb.archives.getD 0
        ⟨0, [], [], none, [], [], 0, 0, 0, none, none, false, none, none⟩) ∧
    ({ emptyUpsertData with id := some 1, pages := some 42 } :
        UpsertArchiveData).hash = none ∧
    ∃ st3, upsert_archive { emptyUpsertData with id := some 1, pages := some 42 }
        oneArchiveDb = .ok (st3, 1) := by
  refine ⟨by decide, by decide, ?_⟩
  obtain ⟨st3, hok, -, -⟩ :=
    upsert_archive_update_fields
      { emptyUpsertData with id := some 1, pages := some 42 } oneArchiveDb
      (oneArchiveDb.archives.getD 0
        ⟨0, [], [], none, [], [], 0, 0, 0, none, none, false, none, none⟩)
      (by decide) (.inl (by decide))
  exact ⟨st3, hok⟩

end Faccina
